import Mathlib

/-!
# SHA-256 (`Blockchain/sha-256.c`) and the linked list (`LinkedList.c`)

A shallow embedding of the C sources and theorems about it.

* Bytes and 32-bit words are natural numbers; every operation that can wrap in C
  carries its explicit `% 2 ^ 32` (or `% 2 ^ 64` for `size_t`).
* A byte buffer (`input`, `chunk`, `hash`) is a function from offsets to bytes, so
  that a write outside the intended range is visible in the model.
* The fixed-size word arrays `h`, `w` and `ah` are lists updated with `List.set`.
* The `while` loop of `calc_sha_256` takes a fuel argument and answers `none` when
  the fuel is used up before `calc_chunk` returns `0`.
* The nodes of the linked list live in a heap, a function from addresses to nodes, with
  address `0` for `NULL`; `enqueue` takes the pointer that `malloc` returns as an
  argument, and its inner `while` loop takes fuel like the one of `calc_sha_256`.
-/

namespace Sha256

/-! ## Declarations of `sha-256.h` -/

/-- Modelled from the spec: the macro `CHUNK_SIZE` of `sha-256.h` (a block is
"exactly 64 bytes"). -/
def CHUNK_SIZE : Nat := 64

/-- Modelled from the spec: the macro `TOTAL_LEN_LEN` of `sha-256.h` (the trailer is
a "64-bit big-endian bit-length", 8 bytes). -/
def TOTAL_LEN_LEN : Nat := 8

/-- Modelled from the spec: `struct buffer_state` of `sha-256.h`, the buffer cursor
("pointer/offset + remaining length", the total length, the marker flag and the
trailer flag).  The pointer `p` is an offset into the input memory. -/
structure buffer_state where
  p : Nat
  len : Nat
  total_len : Nat
  single_one_delivered : Bool
  total_len_delivered : Bool
deriving DecidableEq

/-- Modelled from the spec: the table `k` of `sha-256.h`, the "64 fixed unsigned
32-bit values ... defined by the standard" (FIPS 180-4, section 4.2.2). -/
def k : List Nat :=
  [0x428A2F98, 0x71374491, 0xB5C0FBCF, 0xE9B5DBA5, 0x3956C25B, 0x59F111F1, 0x923F82A4, 0xAB1C5ED5,
   0xD807AA98, 0x12835B01, 0x243185BE, 0x550C7DC3, 0x72BE5D74, 0x80DEB1FE, 0x9BDC06A7, 0xC19BF174,
   0xE49B69C1, 0xEFBE4786, 0x0FC19DC6, 0x240CA1CC, 0x2DE92C6F, 0x4A7484AA, 0x5CB0A9DC, 0x76F988DA,
   0x983E5152, 0xA831C66D, 0xB00327C8, 0xBF597FC7, 0xC6E00BF3, 0xD5A79147, 0x06CA6351, 0x14292967,
   0x27B70A85, 0x2E1B2138, 0x4D2C6DFC, 0x53380D13, 0x650A7354, 0x766A0ABB, 0x81C2C92E, 0x92722C85,
   0xA2BFE8A1, 0xA81A664B, 0xC24B8B70, 0xC76C51A3, 0xD192E819, 0xD6990624, 0xF40E3585, 0x106AA070,
   0x19A4C116, 0x1E376C08, 0x2748774C, 0x34B0BCB5, 0x391C0CB3, 0x4ED8AA4A, 0x5B9CCA4F, 0x682E6FF3,
   0x748F82EE, 0x78A5636F, 0x84C87814, 0x8CC70208, 0x90BEFFFA, 0xA4506CEB, 0xBEF9A3F7, 0xC67178F2]

/-! ## Buffers -/

/-- A byte buffer: offset to byte. -/
abbrev Buf := Nat → Nat

/-- `memcpy (dst + d, src + s, n)`. -/
def memcpy (dst : Buf) (d : Nat) (src : Buf) (s n : Nat) : Buf :=
  fun i => if d ≤ i ∧ i < d + n then src (s + (i - d)) else dst i

/-- `memset (dst + d, v, n)`. -/
def memset (dst : Buf) (d v n : Nat) : Buf :=
  fun i => if d ≤ i ∧ i < d + n then v else dst i

/-- `dst[d] = v`. -/
def store (dst : Buf) (d v : Nat) : Buf :=
  fun i => if i = d then v else dst i

/-- The `n` bytes of a buffer from offset `s` on. -/
def bytes (b : Buf) (s n : Nat) : List Nat :=
  (List.range n).map (fun i => b (s + i))

/-- A byte sequence laid out in memory from offset `0` on. -/
def ofList (msg : List Nat) : Buf :=
  fun i => msg.getD i 0

/-! ## `sha-256.c` -/

/-- `right_rot`: `value >> count | value << (32 - count)` on `uint32_t`. -/
def right_rot (value count : Nat) : Nat :=
  (value >>> count) ||| ((value <<< (32 - count)) % 2 ^ 32)

/-- `init_buf_state`. -/
def init_buf_state (input len : Nat) : buffer_state :=
  { p := input, len := len, total_len := len,
    single_one_delivered := false, total_len_delivered := false }

/-- The loop `for (i = 6; i >= 0; i--) { chunk[i] = (uint8_t) len; len >>= 8; }` of
`calc_chunk`, with `c` the offset of the trailer in the block. -/
def store_len (c : Nat) : List Nat → Buf × Nat → Buf × Nat
  | [], r => r
  | i :: is, (chunk, len) => store_len c is (store chunk (c + i) (len % 256), len >>> 8)

/-- `calc_chunk`: the return value, the block buffer and the cursor after the call.
`input` is the memory the cursor points into. -/
def calc_chunk (input : Buf) (chunk : Buf) (state : buffer_state) : Nat × Buf × buffer_state :=
  if state.total_len_delivered then (0, chunk, state)
  else if state.len ≥ CHUNK_SIZE then
    (1, memcpy chunk 0 input state.p CHUNK_SIZE,
      { state with p := state.p + CHUNK_SIZE, len := state.len - CHUNK_SIZE })
  else
    let chunk1 := memcpy chunk 0 input state.p state.len
    let c := state.len
    let space_in_chunk := CHUNK_SIZE - state.len
    let state1 := { state with p := state.p + state.len, len := 0 }
    let chunk2 := if state1.single_one_delivered then chunk1 else store chunk1 c 0x80
    let c2 := if state1.single_one_delivered then c else c + 1
    let space_in_chunk2 :=
      if state1.single_one_delivered then space_in_chunk else space_in_chunk - 1
    let state2 := { state1 with single_one_delivered := true }
    if space_in_chunk2 ≥ TOTAL_LEN_LEN then
      let left := space_in_chunk2 - TOTAL_LEN_LEN
      let len := state2.total_len
      let chunk3 := memset chunk2 c2 0x00 left
      let c3 := c2 + left
      let chunk4 := store chunk3 (c3 + 7) ((len <<< 3) % 2 ^ 64 % 256)
      let r := store_len c3 [6, 5, 4, 3, 2, 1, 0] (chunk4, len >>> 5)
      (1, r.1, { state2 with total_len_delivered := true })
    else
      (1, memset chunk2 c2 0x00 space_in_chunk2, state2)

/-- The locals of `calc_sha_256` that live across iterations of its `while` loop. -/
structure locals where
  h : List Nat
  chunk : Buf
  state : buffer_state
  w : List Nat
  ah : List Nat

/-- The loop `for (i = 0; i < 16; i++) { w[i] = p[0] << 24 | ...; p += 4; }`. -/
def load_words (chunk : Buf) (w : List Nat) : List Nat :=
  (List.range 16).foldl (fun w i =>
    w.set i (((chunk (4 * i) <<< 24) % 2 ^ 32) ||| ((chunk (4 * i + 1) <<< 16) % 2 ^ 32) |||
      ((chunk (4 * i + 2) <<< 8) % 2 ^ 32) ||| chunk (4 * i + 3))) w

/-- One pass of the body of `for (i = 16; i < 64; i++)`. -/
def extend_step (w : List Nat) (i : Nat) : List Nat :=
  let s0 := right_rot (w.getD (i - 15) 0) 7 ^^^ right_rot (w.getD (i - 15) 0) 18 ^^^
    (w.getD (i - 15) 0 >>> 3)
  let s1 := right_rot (w.getD (i - 2) 0) 17 ^^^ right_rot (w.getD (i - 2) 0) 19 ^^^
    (w.getD (i - 2) 0 >>> 10)
  w.set i ((w.getD (i - 16) 0 + s0 + w.getD (i - 7) 0 + s1) % 2 ^ 32)

/-- The message schedule: `memset (w, 0x00, sizeof w)` on the whole array and the two
loops filling `w`. -/
def schedule (chunk : Buf) (w : List Nat) : List Nat :=
  (List.range' 16 48).foldl extend_step (load_words chunk (w.map (fun _ => 0)))

/-- One pass of the body of the compression loop `for (i = 0; i < 64; i++)`. -/
def round (w : List Nat) (ah : List Nat) (i : Nat) : List Nat :=
  let s1 := right_rot (ah.getD 4 0) 6 ^^^ right_rot (ah.getD 4 0) 11 ^^^ right_rot (ah.getD 4 0) 25
  let ch := (ah.getD 4 0 &&& ah.getD 5 0) ^^^ ((2 ^ 32 - 1 - ah.getD 4 0) &&& ah.getD 6 0)
  let temp1 := (ah.getD 7 0 + s1 + ch + k.getD i 0 + w.getD i 0) % 2 ^ 32
  let s0 := right_rot (ah.getD 0 0) 2 ^^^ right_rot (ah.getD 0 0) 13 ^^^ right_rot (ah.getD 0 0) 22
  let maj := (ah.getD 0 0 &&& ah.getD 1 0) ^^^ (ah.getD 0 0 &&& ah.getD 2 0) ^^^
    (ah.getD 1 0 &&& ah.getD 2 0)
  let temp2 := (s0 + maj) % 2 ^ 32
  let ah := ah.set 7 (ah.getD 6 0)
  let ah := ah.set 6 (ah.getD 5 0)
  let ah := ah.set 5 (ah.getD 4 0)
  let ah := ah.set 4 ((ah.getD 3 0 + temp1) % 2 ^ 32)
  let ah := ah.set 3 (ah.getD 2 0)
  let ah := ah.set 2 (ah.getD 1 0)
  let ah := ah.set 1 (ah.getD 0 0)
  ah.set 0 ((temp1 + temp2) % 2 ^ 32)

/-- The body of the `while` loop of `calc_sha_256`, entered with the block that
`calc_chunk` has just written into `chunk`. -/
def process_chunk (l : locals) : locals :=
  let w := schedule l.chunk l.w
  let ah := (List.range 8).foldl (fun ah i => ah.set i (l.h.getD i 0)) l.ah
  let ah := (List.range 64).foldl (round w) ah
  let h := (List.range 8).foldl (fun h i => h.set i ((h.getD i 0 + ah.getD i 0) % 2 ^ 32)) l.h
  { l with h := h, w := w, ah := ah }

/-- The loop `while (calc_chunk(chunk, &state)) { ... }` of `calc_sha_256`: `none` when
the fuel runs out before `calc_chunk` returns `0`. -/
def sha_loop (input : Buf) : Nat → locals → Option locals
  | 0, _ => none
  | fuel + 1, l =>
    let r := calc_chunk input l.chunk l.state
    if r.1 = 0 then some { l with chunk := r.2.1, state := r.2.2 }
    else sha_loop input fuel (process_chunk { l with chunk := r.2.1, state := r.2.2 })

/-- The final loop of `calc_sha_256`, writing the state words big-endian into `hash`. -/
def write_hash (h : List Nat) (hash : Buf) : Buf :=
  (List.range 8).foldl (fun hash i =>
    let hash := store hash (4 * i) ((h.getD i 0 >>> 24) % 256)
    let hash := store hash (4 * i + 1) ((h.getD i 0 >>> 16) % 256)
    let hash := store hash (4 * i + 2) ((h.getD i 0 >>> 8) % 256)
    store hash (4 * i + 3) (h.getD i 0 % 256)) hash

/-- The initial hash values `h[]` of `calc_sha_256`. -/
def h_init : List Nat :=
  [0x6a09e667, 0xbb67ae85, 0x3c6ef372, 0xa54ff53a, 0x510e527f, 0x9b05688c, 0x1f83d9ab, 0x5be0cd19]

/-- The contents of the uninitialised locals `chunk`, `w` and `ah` of `calc_sha_256`
on entry. -/
structure stack where
  chunk : Buf
  w : List Nat
  ah : List Nat

/-- `calc_sha_256 (hash, mem + input, len)`: the buffer `hash` after the call, `none`
when the fuel does not suffice for the `while` loop. -/
def calc_sha_256 (fuel : Nat) (s : stack) (hash : Buf) (mem : Buf) (input len : Nat) :
    Option Buf :=
  (sha_loop mem fuel
    { h := h_init, chunk := s.chunk, state := init_buf_state input len, w := s.w, ah := s.ah }).map
    (fun l => write_hash l.h hash)

/-- A stack whose locals are all zero. -/
def stack0 : stack := { chunk := fun _ => 0, w := List.replicate 64 0, ah := List.replicate 8 0 }

/-! ## Runs of the chunker -/

/-- The blocks that successive `calc_chunk` calls return, up to the first call that
returns `0`, each with the cursor state its call leaves behind; `none` when no call
among the first `fuel` returns `0`. -/
def run_chunks (input : Buf) : Nat → Buf → buffer_state → Option (List (List Nat × buffer_state))
  | 0, _, _ => none
  | fuel + 1, chunk, state =>
    let r := calc_chunk input chunk state
    if r.1 = 0 then some []
    else (run_chunks input fuel r.2.1 r.2.2).map (fun bs => (bytes r.2.1 0 CHUNK_SIZE, r.2.2) :: bs)

/-- One `calc_chunk` call of a run: the cursor before it, its return value, the block
buffer and the cursor after it. -/
structure call where
  before : buffer_state
  ret : Nat
  chunk : Buf
  after : buffer_state

/-- The first `n` successive `calc_chunk` calls on one block buffer and one cursor,
whatever they return. -/
def chunk_calls (input : Buf) : Nat → Buf → buffer_state → List call
  | 0, _, _ => []
  | n + 1, chunk, state =>
    let r := calc_chunk input chunk state
    { before := state, ret := r.1, chunk := r.2.1, after := r.2.2 } ::
      chunk_calls input n r.2.1 r.2.2

/-- The 8 trailer bytes as `calc_chunk` computes them from `len = state->total_len`:
`chunk[7] = (uint8_t) (len << 3)`, `len >>= 5`, then `chunk[i] = (uint8_t) len`,
`len >>= 8` for `i = 6, ..., 0`. -/
def len_bytes (len : Nat) : List Nat :=
  [(len >>> 5 >>> 8 >>> 8 >>> 8 >>> 8 >>> 8 >>> 8) % 256,
   (len >>> 5 >>> 8 >>> 8 >>> 8 >>> 8 >>> 8) % 256,
   (len >>> 5 >>> 8 >>> 8 >>> 8 >>> 8) % 256,
   (len >>> 5 >>> 8 >>> 8 >>> 8) % 256,
   (len >>> 5 >>> 8 >>> 8) % 256,
   (len >>> 5 >>> 8) % 256,
   (len >>> 5) % 256,
   (len <<< 3) % 2 ^ 64 % 256]

/-! ## The standard, in the words of the specification -/

/-- Big-endian 64-bit encoding. -/
def BE64 (n : Nat) : List Nat :=
  (List.range 8).map (fun i => (n >>> (8 * (7 - i))) % 256)

/-- The number of zero bytes of the padding of a message of `L` bytes. -/
def pad_zeros (L : Nat) : Nat := (64 - (L + 9) % 64) % 64

/-- The padded message `msg ++ [0x80] ++ (k zero bytes) ++ BE64 (8 * L)`. -/
def padded (msg : List Nat) : List Nat :=
  msg ++ [0x80] ++ List.replicate (pad_zeros msg.length) 0 ++ BE64 (8 * msg.length)

/-- The first `n` consecutive 64-byte blocks of a byte sequence. -/
def blocks_aux : Nat → List Nat → List (List Nat)
  | 0, _ => []
  | n + 1, l => l.take 64 :: blocks_aux n (l.drop 64)

/-- The consecutive 64-byte blocks of a byte sequence. -/
def blocks (l : List Nat) : List (List Nat) := blocks_aux (l.length / 64) l

/-- The per-block schedule and compression step of `calc_sha_256` as a function of the
running state and the block. -/
def compress (h : List Nat) (block : List Nat) : List Nat :=
  (process_chunk { h := h, chunk := ofList block, state := init_buf_state 0 0,
                   w := List.replicate 64 0, ah := List.replicate 8 0 }).h

/-- Big-endian serialisation of the state words. -/
def serialise (h : List Nat) : List Nat :=
  h.flatMap (fun x => [(x >>> 24) % 256, (x >>> 16) % 256, (x >>> 8) % 256, x % 256])

/-- SHA-256 as the specification words it: the serialised state after folding the
per-block step over the blocks of the padded message, from the initial words. -/
def sha256_spec (msg : List Nat) : List Nat :=
  serialise ((blocks (padded msg)).foldl compress h_init)

/-- The trailer of `calc_chunk` written at offset `c`: `chunk[7]` from `len << 3`, then
`chunk[6]` down to `chunk[0]` from the shifted `len`. -/
def put_len (chunk : Buf) (c len : Nat) : Buf :=
  (store_len c [6, 5, 4, 3, 2, 1, 0] (store chunk (c + 7) ((len <<< 3) % 2 ^ 64 % 256), len >>> 5)).1

/-- The blocks and cursor states of the padding calls of a run, for a cursor with
`len < 64` bytes left and neither flag set. -/
def tail_run (input : Buf) (total p len : Nat) : List (List Nat × buffer_state) :=
  if len ≤ 55 then
    [(bytes input p len ++ [0x80] ++ List.replicate (55 - len) 0 ++ len_bytes total,
      { p := p + len, len := 0, total_len := total,
        single_one_delivered := true, total_len_delivered := true })]
  else
    [(bytes input p len ++ [0x80] ++ List.replicate (63 - len) 0,
      { p := p + len, len := 0, total_len := total,
        single_one_delivered := true, total_len_delivered := false }),
     (List.replicate 56 0 ++ len_bytes total,
      { p := p + len, len := 0, total_len := total,
        single_one_delivered := true, total_len_delivered := true })]

/-- The blocks and cursor states of the first `q` calls of a run on a cursor with at
least `64 * q` bytes left. -/
def full_blocks (input : Buf) (total q p len : Nat) : List (List Nat × buffer_state) :=
  (List.range q).map (fun j =>
    (bytes input (p + 64 * j) 64,
      ({ p := p + 64 * (j + 1), len := len - 64 * (j + 1), total_len := total,
         single_one_delivered := false, total_len_delivered := false } : buffer_state)))

/-- The blocks and cursor states of a whole run: `q` full blocks, then the padding. -/
def full_run (input : Buf) (total q p len : Nat) : List (List Nat × buffer_state) :=
  full_blocks input total q p len ++ tail_run input total (p + 64 * q) (len - 64 * q)

/-- The value the body of `for (i = 16; i < 64; i++)` stores into `w[i]`. -/
def ext_word (w : List Nat) (i : Nat) : Nat :=
  (w.getD (i - 16) 0 +
    (right_rot (w.getD (i - 15) 0) 7 ^^^ right_rot (w.getD (i - 15) 0) 18 ^^^
      (w.getD (i - 15) 0 >>> 3)) +
    w.getD (i - 7) 0 +
    (right_rot (w.getD (i - 2) 0) 17 ^^^ right_rot (w.getD (i - 2) 0) 19 ^^^
      (w.getD (i - 2) 0 >>> 10))) % 2 ^ 32

/-- The cursor states reachable from `init_buf_state (input, L)` by any number of
`calc_chunk` calls, each on any block buffer. -/
inductive reachable (mem : Buf) (input L : Nat) : buffer_state → Prop
  | init : reachable mem input L (init_buf_state input L)
  | step (chunk : Buf) (state : buffer_state) :
      reachable mem input L state → reachable mem input L (calc_chunk mem chunk state).2.2

/-- The termination measure `(len, 1 - single_one_delivered, 1 - total_len_delivered)`
of a cursor. -/
def cursor_measure (state : buffer_state) : Nat × Nat × Nat :=
  (state.len, 1 - state.single_one_delivered.toNat, 1 - state.total_len_delivered.toNat)

/-- The lexicographic order on the termination measure. -/
def measure_lt (a b : Nat × Nat × Nat) : Prop :=
  a.1 < b.1 ∨ (a.1 = b.1 ∧ (a.2.1 < b.2.1 ∨ (a.2.1 = b.2.1 ∧ a.2.2 < b.2.2)))

/-- The block of the padding path of `calc_chunk` (fewer than 64 bytes left): the copied
data, the marker when it is still due, the zero fill, and the trailer when 8 bytes
remain for it. -/
def pad_block (input : Buf) (state : buffer_state) : List Nat :=
  bytes input state.p state.len ++
    List.replicate (if state.single_one_delivered then 0 else 1) 0x80 ++
    List.replicate
      (if 8 ≤ 64 - state.len - (if state.single_one_delivered then 0 else 1)
       then 64 - state.len - (if state.single_one_delivered then 0 else 1) - 8
       else 64 - state.len - (if state.single_one_delivered then 0 else 1)) 0 ++
    (if 8 ≤ 64 - state.len - (if state.single_one_delivered then 0 else 1)
     then len_bytes state.total_len else [])

/-- The number of bytes of the blocks of a run apart from the 8-byte length trailer: the
input bytes, the marker and the zero padding. -/
def non_trailer_bytes (bs : List (List Nat × buffer_state)) : Nat :=
  (bs.map (fun x => x.1.length)).sum - TOTAL_LEN_LEN

/-- The update of the running state `h` in the body of the `while` loop of
`calc_sha_256`, from the schedule `w` on: the working registers `ah` are set from `h`,
the 64 rounds run, and the registers are added into `h`. -/
def compression (h w ah : List Nat) : List Nat :=
  let ah := (List.range 8).foldl (fun ah i => ah.set i (h.getD i 0)) ah
  let ah := (List.range 64).foldl (round w) ah
  (List.range 8).foldl (fun h i => h.set i ((h.getD i 0 + ah.getD i 0) % 2 ^ 32)) h

/-- The eight working registers of the reference compression. -/
structure registers where
  a : Nat
  b : Nat
  c : Nat
  d : Nat
  e : Nat
  f : Nat
  g : Nat
  h : Nat

/-- The registers in the order `a, ..., h`. -/
def registers.toList (r : registers) : List Nat := [r.a, r.b, r.c, r.d, r.e, r.f, r.g, r.h]

/-- One round of the reference compression, with round constant `ki` and schedule word
`wi`; `~e` on a 32-bit word is `2 ^ 32 - 1 - e`. -/
def ref_round (r : registers) (ki wi : Nat) : registers :=
  let S1 := right_rot r.e 6 ^^^ right_rot r.e 11 ^^^ right_rot r.e 25
  let ch := (r.e &&& r.f) ^^^ ((2 ^ 32 - 1 - r.e) &&& r.g)
  let temp1 := (r.h + S1 + ch + ki + wi) % 2 ^ 32
  let S0 := right_rot r.a 2 ^^^ right_rot r.a 13 ^^^ right_rot r.a 22
  let maj := (r.a &&& r.b) ^^^ (r.a &&& r.c) ^^^ (r.b &&& r.c)
  let temp2 := (S0 + maj) % 2 ^ 32
  { a := (temp1 + temp2) % 2 ^ 32, b := r.a, c := r.b, d := r.c,
    e := (r.d + temp1) % 2 ^ 32, f := r.e, g := r.f, h := r.g }

/-- The reference compression: 64 rounds from the registers `H`, then `H[j] + register[j]`
modulo `2 ^ 32`. -/
def ref_compress (H w : List Nat) : List Nat :=
  let r := (List.range 64).foldl (fun r i => ref_round r (k.getD i 0) (w.getD i 0))
    { a := H.getD 0 0, b := H.getD 1 0, c := H.getD 2 0, d := H.getD 3 0,
      e := H.getD 4 0, f := H.getD 5 0, g := H.getD 6 0, h := H.getD 7 0 }
  [(H.getD 0 0 + r.a) % 2 ^ 32, (H.getD 1 0 + r.b) % 2 ^ 32, (H.getD 2 0 + r.c) % 2 ^ 32,
   (H.getD 3 0 + r.d) % 2 ^ 32, (H.getD 4 0 + r.e) % 2 ^ 32, (H.getD 5 0 + r.f) % 2 ^ 32,
   (H.getD 6 0 + r.g) % 2 ^ 32, (H.getD 7 0 + r.h) % 2 ^ 32]

/-- The body of `for (i = 16; i < 64; i++)` with its calls of `right_rot` made to `rot`. -/
def extend_step_with (rot : Nat → Nat → Nat) (w : List Nat) (i : Nat) : List Nat :=
  let s0 := rot (w.getD (i - 15) 0) 7 ^^^ rot (w.getD (i - 15) 0) 18 ^^^
    (w.getD (i - 15) 0 >>> 3)
  let s1 := rot (w.getD (i - 2) 0) 17 ^^^ rot (w.getD (i - 2) 0) 19 ^^^
    (w.getD (i - 2) 0 >>> 10)
  w.set i ((w.getD (i - 16) 0 + s0 + w.getD (i - 7) 0 + s1) % 2 ^ 32)

/-- The body of the compression loop with its calls of `right_rot` made to `rot`. -/
def round_with (rot : Nat → Nat → Nat) (w : List Nat) (ah : List Nat) (i : Nat) : List Nat :=
  let s1 := rot (ah.getD 4 0) 6 ^^^ rot (ah.getD 4 0) 11 ^^^ rot (ah.getD 4 0) 25
  let ch := (ah.getD 4 0 &&& ah.getD 5 0) ^^^ ((2 ^ 32 - 1 - ah.getD 4 0) &&& ah.getD 6 0)
  let temp1 := (ah.getD 7 0 + s1 + ch + k.getD i 0 + w.getD i 0) % 2 ^ 32
  let s0 := rot (ah.getD 0 0) 2 ^^^ rot (ah.getD 0 0) 13 ^^^ rot (ah.getD 0 0) 22
  let maj := (ah.getD 0 0 &&& ah.getD 1 0) ^^^ (ah.getD 0 0 &&& ah.getD 2 0) ^^^
    (ah.getD 1 0 &&& ah.getD 2 0)
  let temp2 := (s0 + maj) % 2 ^ 32
  let ah := ah.set 7 (ah.getD 6 0)
  let ah := ah.set 6 (ah.getD 5 0)
  let ah := ah.set 5 (ah.getD 4 0)
  let ah := ah.set 4 ((ah.getD 3 0 + temp1) % 2 ^ 32)
  let ah := ah.set 3 (ah.getD 2 0)
  let ah := ah.set 2 (ah.getD 1 0)
  let ah := ah.set 1 (ah.getD 0 0)
  ah.set 0 ((temp1 + temp2) % 2 ^ 32)

/-- The rotation counts of `calc_sha_256`. -/
def rot_counts : List Nat := [2, 6, 7, 11, 13, 17, 18, 19, 22, 25]

/-- A rotation that is `right_rot` on the counts of `rot_counts` and anything at all
(`other`) on every other count. -/
def rot_on_counts (other : Nat → Nat → Nat) (value count : Nat) : Nat :=
  if count ∈ rot_counts then right_rot value count else other value count

/-- The 8 state words decoded big-endian from the 32 bytes of a digest. -/
def decode_state (digest : List Nat) : List Nat :=
  (List.range 8).map (fun i =>
    digest.getD (4 * i) 0 * 2 ^ 24 + digest.getD (4 * i + 1) 0 * 2 ^ 16 +
      digest.getD (4 * i + 2) 0 * 2 ^ 8 + digest.getD (4 * i + 3) 0)

/-- The padding `[0x80] ++ zeros ++ BE64 (8 * L)` of a message of `L` bytes. -/
def pad (L : Nat) : List Nat :=
  [0x80] ++ List.replicate (pad_zeros L) 0 ++ BE64 (8 * L)

/-- The block loop and the final serialisation of `calc_sha_256`, resumed from the state
words decoded from a digest, over `len` bytes at `input`, with the cursor's `total_len`
set to `total`. -/
def resume_sha_256 (fuel : Nat) (s : stack) (hash mem : Buf) (digest : List Nat)
    (input len total : Nat) : Option Buf :=
  (sha_loop mem fuel
    { h := decode_state digest, chunk := s.chunk,
      state := { p := input, len := len, total_len := total,
                 single_one_delivered := false, total_len_delivered := false },
      w := s.w, ah := s.ah }).map (fun l => write_hash l.h hash)

/-- The length-extension identity for `X` and `Y`: hashing `X ++ pad (X) ++ Y` gives what
resuming from the digest of `X` over `Y` gives. -/
def length_extension_identity (X Y : List Nat) : Prop :=
  ∃ dX, (calc_sha_256 (X.length / 64 + 3) stack0 (fun _ => 0) (ofList X) 0 X.length).map
      (fun b => bytes b 0 32) = some dX ∧
    (calc_sha_256 ((X ++ pad X.length ++ Y).length / 64 + 3) stack0 (fun _ => 0)
        (ofList (X ++ pad X.length ++ Y)) 0 (X ++ pad X.length ++ Y).length).map
      (fun b => bytes b 0 32) =
    (resume_sha_256 (Y.length / 64 + 3) stack0 (fun _ => 0) (ofList Y) dX 0 Y.length
        (X ++ pad X.length ++ Y).length).map (fun b => bytes b 0 32)

end Sha256

namespace LinkedListC

/-! ## `LinkedList.c` -/

/-- Modelled from the spec: the type `Node` of `LinkedList.h` (a node holds one item and
the pointer to the next node).  Pointers are addresses; the item is a `void *`. -/
structure Node where
  data : Nat
  next : Nat

/-- Modelled from the spec: the type `LinkedList` of `LinkedList.h`, with the fields
`first` and `size` that `LinkedList.c` uses. -/
structure LinkedList where
  first : Nat
  size : Nat

/-- The null pointer. -/
def NULL : Nat := 0

/-- The nodes allocated so far, by address. -/
abbrev Heap := Nat → Option Node

/-- The assignment `*a = node`. -/
def write (heap : Heap) (a : Nat) (node : Node) : Heap :=
  fun b => if b = a then some node else heap b

/-- `init`. -/
def init (_list : LinkedList) : LinkedList :=
  { first := NULL, size := 0 }

/-- `isEmpty`. -/
def isEmpty (list : LinkedList) : Bool :=
  list.size == 0

/-- The loop `while (aux->next != NULL) aux = aux->next;` of `enqueue`: the final `aux`,
`none` when the fuel runs out or an address that is not allocated is read. -/
def last_node (heap : Heap) : Nat → Nat → Option Nat
  | 0, _ => none
  | fuel + 1, aux =>
    match heap aux with
    | none => none
    | some node => if node.next ≠ NULL then last_node heap fuel node.next else some aux

/-- `enqueue`, with `newNode` the pointer that `malloc` returns: the return value, the
heap and the list after the call. -/
def enqueue (fuel : Nat) (heap : Heap) (list : LinkedList) (newNode : Nat) (data : Nat) :
    Option (Int × Heap × LinkedList) :=
  if newNode = NULL then some (-1, heap, list)
  else
    let heap1 := write heap newNode { data := data, next := NULL }
    if isEmpty list then
      some (1, heap1, { list with first := newNode, size := list.size + 1 })
    else
      match last_node heap1 fuel list.first with
      | none => none
      | some aux =>
        match heap1 aux with
        | none => none
        | some node =>
          some (1, write heap1 aux { node with next := newNode },
            { list with size := list.size + 1 })

/-- Successive `enqueue` calls, one for each pair of a pointer returned by `malloc` and an
item: the return values, the heap and the list after the last call. -/
def enqueue_all (fuel : Nat) : Heap → LinkedList → List (Nat × Nat) →
    Option (List Int × Heap × LinkedList)
  | heap, list, [] => some ([], heap, list)
  | heap, list, (a, x) :: rest =>
    match enqueue fuel heap list a x with
    | none => none
    | some r => (enqueue_all fuel r.2.1 r.2.2 rest).map (fun q => (r.1 :: q.1, q.2.1, q.2.2))

/-- The items met when following `next` pointers from `p` until `NULL`, in order. -/
def walk (heap : Heap) : Nat → Nat → Option (List Nat)
  | 0, p => if p = NULL then some [] else none
  | fuel + 1, p =>
    if p = NULL then some []
    else
      match heap p with
      | none => none
      | some node => (walk heap fuel node.next).map (fun xs => node.data :: xs)

/-- The address of the first of a sequence of nodes (address, item), `NULL` when there
is none. -/
def head_addr : List (Nat × Nat) → Nat
  | [] => NULL
  | (a, _) :: _ => a

/-- The address of the last of a sequence of nodes, `NULL` when there is none. -/
def last_addr : List (Nat × Nat) → Nat
  | [] => NULL
  | [(a, _)] => a
  | _ :: n :: rest => last_addr (n :: rest)

/-- The heap holds the nodes `nodes` (address, item), linked in this order from `p` and
ended by `NULL`. -/
def chain (heap : Heap) : Nat → List (Nat × Nat) → Prop
  | p, [] => p = NULL
  | p, (a, x) :: rest =>
    p = a ∧ a ≠ NULL ∧ heap a = some { data := x, next := head_addr rest } ∧
      chain heap (head_addr rest) rest

/-- The list `list` in the heap `heap` is made of the nodes `nodes` (address, item), in
this order, at distinct addresses. -/
def holds (heap : Heap) (list : LinkedList) (nodes : List (Nat × Nat)) : Prop :=
  chain heap list.first nodes ∧ list.size = nodes.length ∧ (nodes.map Prod.fst).Nodup

end LinkedListC

namespace Sha256

/-! ## Buffers: basic facts -/

theorem bytes_length (b : Buf) (s n : Nat) : (bytes b s n).length = n := by
  simp [bytes]

theorem bytes_append (b : Buf) (s m n : Nat) :
    bytes b s (m + n) = bytes b s m ++ bytes b (s + m) n := by
  simp only [bytes, List.range_add, List.map_append, List.map_map]
  congr 1
  apply List.map_congr_left
  intro i _
  simp [Nat.add_assoc]

theorem bytes_congr {b c : Buf} {s t n : Nat} (h : ∀ i, i < n → b (s + i) = c (t + i)) :
    bytes b s n = bytes c t n := by
  simp only [bytes]
  apply List.map_congr_left
  intro i hi
  exact h i (List.mem_range.mp hi)

theorem bytes_eq_replicate {b : Buf} {s n v : Nat} (h : ∀ i, i < n → b (s + i) = v) :
    bytes b s n = List.replicate n v := by
  apply List.ext_getElem
  · simp [bytes]
  · intro i h1 h2
    simp only [bytes, List.getElem_map, List.getElem_range, List.getElem_replicate]
    exact h i (by simpa [bytes] using h1)

theorem bytes_ofList (msg : List Nat) : bytes (ofList msg) 0 msg.length = msg := by
  apply List.ext_getElem
  · simp [bytes]
  · intro i h1 h2
    simp [bytes, ofList, List.getD_eq_getElem?_getD, h2]

/-! ## `calc_chunk`, one call at a time -/

theorem calc_chunk_done (input chunk : Buf) (state : buffer_state)
    (h : state.total_len_delivered = true) :
    calc_chunk input chunk state = (0, chunk, state) := by
  simp [calc_chunk, h]

theorem calc_chunk_full (input chunk : Buf) (state : buffer_state)
    (h : state.total_len_delivered = false) (hlen : 64 ≤ state.len) :
    calc_chunk input chunk state =
      (1, memcpy chunk 0 input state.p 64,
        { state with p := state.p + 64, len := state.len - 64 }) := by
  simp [calc_chunk, h, CHUNK_SIZE, hlen]

theorem bytes_memcpy (input chunk : Buf) (p n : Nat) :
    bytes (memcpy chunk 0 input p n) 0 n = bytes input p n := by
  apply bytes_congr
  intro i hi
  simp [memcpy, hi]

theorem store_apply (dst : Buf) (d v i : Nat) :
    store dst d v i = if i = d then v else dst i := rfl

theorem memset_apply (dst : Buf) (d v n i : Nat) :
    memset dst d v n i = if d ≤ i ∧ i < d + n then v else dst i := rfl

theorem memcpy_apply (dst : Buf) (d : Nat) (src : Buf) (s n i : Nat) :
    memcpy dst d src s n i = if d ≤ i ∧ i < d + n then src (s + (i - d)) else dst i := rfl

theorem store_eq (dst : Buf) (d v i : Nat) (h : i = d) : store dst d v i = v := by
  simp [store, h]

theorem store_ne (dst : Buf) (d v i : Nat) (h : i ≠ d) : store dst d v i = dst i := by
  simp [store, h]

theorem memset_in (dst : Buf) (d v n i : Nat) (h : d ≤ i ∧ i < d + n) :
    memset dst d v n i = v := by
  simp [memset, h]

theorem memset_out (dst : Buf) (d v n i : Nat) (h : i < d ∨ d + n ≤ i) :
    memset dst d v n i = dst i := by
  have : ¬ (d ≤ i ∧ i < d + n) := by omega
  simp [memset, this]

theorem memcpy_in (dst : Buf) (d : Nat) (src : Buf) (s n i : Nat) (h : d ≤ i ∧ i < d + n) :
    memcpy dst d src s n i = src (s + (i - d)) := by
  simp [memcpy, h]

theorem memcpy_out (dst : Buf) (d : Nat) (src : Buf) (s n i : Nat) (h : i < d ∨ d + n ≤ i) :
    memcpy dst d src s n i = dst i := by
  have : ¬ (d ≤ i ∧ i < d + n) := by omega
  simp [memcpy, this]

theorem put_len_bytes (chunk : Buf) (c len : Nat) : bytes (put_len chunk c len) c 8 = len_bytes len := by
  simp only [put_len, store_len, bytes, List.range, List.range.loop, List.map_cons, List.map_nil,
    len_bytes]
  simp (disch := omega) only [store_ne, store_eq, Nat.add_zero]

theorem put_len_out (chunk : Buf) (c len i : Nat) (h : i < c ∨ c + 8 ≤ i) :
    put_len chunk c len i = chunk i := by
  simp only [put_len, store_len]
  simp (disch := omega) only [store_ne]

/-- The padding path with room for the trailer: the data, the marker, the zero fill and
the trailer in one block. -/
theorem calc_chunk_last (input chunk : Buf) (p len total : Nat) (hlen : len ≤ 55) :
    calc_chunk input chunk
        { p := p, len := len, total_len := total,
          single_one_delivered := false, total_len_delivered := false } =
      (1, put_len (memset (store (memcpy chunk 0 input p len) len 0x80) (len + 1) 0 (55 - len)) 56 total,
        { p := p + len, len := 0, total_len := total,
          single_one_delivered := true, total_len_delivered := true }) := by
  have h1 : ¬ 64 ≤ len := by omega
  have h2 : 8 ≤ 64 - len - 1 := by omega
  have c2 : 64 - len - 1 - 8 = 55 - len := by omega
  have c3 : len + 1 + (55 - len) = 56 := by omega
  simp only [calc_chunk, CHUNK_SIZE, TOTAL_LEN_LEN, ge_iff_le, h1, h2, if_false, if_true,
    Bool.false_eq_true, c2, c3, put_len]

theorem calc_chunk_last_bytes (input chunk : Buf) (p len total : Nat) (hlen : len ≤ 55) :
    bytes (put_len (memset (store (memcpy chunk 0 input p len) len 0x80) (len + 1) 0 (55 - len))
        56 total) 0 64 =
      bytes input p len ++ [0x80] ++ List.replicate (55 - len) 0 ++ len_bytes total := by
  have e : bytes (put_len (memset (store (memcpy chunk 0 input p len) len 0x80) (len + 1) 0
      (55 - len)) 56 total) 0 64 = bytes (put_len (memset (store (memcpy chunk 0 input p len) len
      0x80) (len + 1) 0 (55 - len)) 56 total) 0 (len + 1 + (55 - len) + 8) := congrArg _ (by omega)
  have e2 : 0 + (len + 1 + (55 - len)) = 56 := by omega
  rw [e, bytes_append, bytes_append, bytes_append, e2, put_len_bytes]
  congr 1
  congr 1
  · congr 1
    · apply bytes_congr
      intro i hi
      simp (disch := omega) only [put_len_out, memset_out, store_ne, memcpy_in]
      simp
    · simp only [bytes, List.range, List.range.loop, List.map_cons, List.map_nil]
      simp (disch := omega) only [put_len_out, memset_out, store_eq]
  · apply bytes_eq_replicate
    intro i hi
    simp (disch := omega) only [put_len_out, memset_in]

/-- The padding path without room for the trailer: the data, the marker and the zero
fill; the trailer is left to the next call. -/
theorem calc_chunk_split (input chunk : Buf) (p len total : Nat) (h56 : 56 ≤ len)
    (h64 : len < 64) :
    calc_chunk input chunk
        { p := p, len := len, total_len := total,
          single_one_delivered := false, total_len_delivered := false } =
      (1, memset (store (memcpy chunk 0 input p len) len 0x80) (len + 1) 0 (63 - len),
        { p := p + len, len := 0, total_len := total,
          single_one_delivered := true, total_len_delivered := false }) := by
  have h1 : ¬ 64 ≤ len := by omega
  have h2 : ¬ 8 ≤ 63 - len := by omega
  have c2 : 64 - len - 1 = 63 - len := by omega
  simp only [calc_chunk, CHUNK_SIZE, TOTAL_LEN_LEN, ge_iff_le, h1, if_false, if_true,
    Bool.false_eq_true, c2, h2]

theorem calc_chunk_split_bytes (input chunk : Buf) (p len : Nat) (h56 : 56 ≤ len)
    (h64 : len < 64) :
    bytes (memset (store (memcpy chunk 0 input p len) len 0x80) (len + 1) 0 (63 - len)) 0 64 =
      bytes input p len ++ [0x80] ++ List.replicate (63 - len) 0 := by
  have e : bytes (memset (store (memcpy chunk 0 input p len) len 0x80) (len + 1) 0 (63 - len)) 0 64
      = bytes (memset (store (memcpy chunk 0 input p len) len 0x80) (len + 1) 0 (63 - len)) 0
        (len + 1 + (63 - len)) := congrArg _ (by omega)
  rw [e, bytes_append, bytes_append]
  congr 1
  · congr 1
    · apply bytes_congr
      intro i hi
      simp (disch := omega) only [memset_out, store_ne, memcpy_in]
      simp
    · simp only [bytes, List.range, List.range.loop, List.map_cons, List.map_nil]
      simp (disch := omega) only [memset_out, store_eq]
  · apply bytes_eq_replicate
    intro i hi
    simp (disch := omega) only [memset_in]

/-- The padding-only block: the call after a split, on a drained cursor with the marker
already delivered. -/
theorem calc_chunk_trailer (input chunk : Buf) (p total : Nat) :
    calc_chunk input chunk
        { p := p, len := 0, total_len := total,
          single_one_delivered := true, total_len_delivered := false } =
      (1, put_len (memset (memcpy chunk 0 input p 0) 0 0 56) 56 total,
        { p := p, len := 0, total_len := total,
          single_one_delivered := true, total_len_delivered := true }) := by
  simp only [calc_chunk, CHUNK_SIZE, TOTAL_LEN_LEN, ge_iff_le, if_false, if_true,
    Bool.false_eq_true, put_len, Nat.reduceLeDiff, Nat.sub_zero, Nat.reduceSub, Nat.add_zero,
    Nat.zero_add]

theorem calc_chunk_trailer_bytes (input chunk : Buf) (p total : Nat) :
    bytes (put_len (memset (memcpy chunk 0 input p 0) 0 0 56) 56 total) 0 64 =
      List.replicate 56 0 ++ len_bytes total := by
  have e : bytes (put_len (memset (memcpy chunk 0 input p 0) 0 0 56) 56 total) 0 64 =
      bytes (put_len (memset (memcpy chunk 0 input p 0) 0 0 56) 56 total) 0 (56 + 8) := rfl
  rw [e, bytes_append, Nat.zero_add, put_len_bytes]
  have z : bytes (put_len (memset (memcpy chunk 0 input p 0) 0 0 56) 56 total) 0 56 =
      List.replicate 56 0 := by
    apply bytes_eq_replicate
    intro i hi
    simp (disch := omega) only [put_len_out, memset_in]
  rw [z]

/-! ## Runs of the chunker -/

theorem run_chunks_one (input : Buf) (fuel : Nat) (chunk chunk1 : Buf) (state state1 : buffer_state)
    (h : calc_chunk input chunk state = (1, chunk1, state1)) :
    run_chunks input (fuel + 1) chunk state =
      (run_chunks input fuel chunk1 state1).map (fun bs => (bytes chunk1 0 64, state1) :: bs) := by
  simp [run_chunks, h, CHUNK_SIZE]

theorem run_chunks_zero (input : Buf) (fuel : Nat) (chunk : Buf) (state : buffer_state)
    (h : state.total_len_delivered = true) :
    run_chunks input (fuel + 1) chunk state = some [] := by
  simp [run_chunks, calc_chunk_done input chunk state h]

theorem run_chunks_tail (input : Buf) (fuel : Nat) (chunk : Buf) (p len total : Nat)
    (hlen : len < 64) :
    run_chunks input (fuel + 3) chunk
        { p := p, len := len, total_len := total,
          single_one_delivered := false, total_len_delivered := false } =
      some (tail_run input total p len) := by
  by_cases h : len ≤ 55
  · rw [run_chunks_one _ _ _ _ _ _ (calc_chunk_last input chunk p len total h),
      run_chunks_zero _ _ _ _ rfl, calc_chunk_last_bytes input chunk p len total h]
    simp [tail_run, h]
  · rw [run_chunks_one _ _ _ _ _ _ (calc_chunk_split input chunk p len total (by omega) hlen),
      run_chunks_one _ _ _ _ _ _ (calc_chunk_trailer input _ (p + len) total),
      run_chunks_zero _ _ _ _ rfl, calc_chunk_split_bytes input chunk p len (by omega) hlen,
      calc_chunk_trailer_bytes]
    simp [tail_run, h]

theorem full_run_succ (input : Buf) (total q p len : Nat) :
    full_run input total (q + 1) p len =
      (bytes input p 64, { p := p + 64, len := len - 64, total_len := total,
                           single_one_delivered := false, total_len_delivered := false }) ::
        full_run input total q (p + 64) (len - 64) := by
  simp only [full_run, full_blocks, List.range_succ_eq_map, List.map_cons, List.map_map, List.cons_append,
    Nat.mul_zero, Nat.add_zero, Nat.zero_add, Nat.mul_one]
  congr 2
  · apply List.map_congr_left
    intro j _
    simp only [Function.comp, Prod.mk.injEq, buffer_state.mk.injEq]
    refine ⟨congrArg (fun x => bytes input x 64) (by omega), by omega, by omega, trivial, trivial,
      trivial⟩
  · congr 1 <;> omega

theorem run_chunks_full (input : Buf) (total : Nat) :
    ∀ (q fuel : Nat) (chunk : Buf) (p len : Nat), len / 64 = q → q + 3 ≤ fuel →
      run_chunks input fuel chunk
        { p := p, len := len, total_len := total,
          single_one_delivered := false, total_len_delivered := false } =
      some (full_run input total q p len) := by
  intro q
  induction q with
  | zero =>
    intro fuel chunk p len hq hf
    obtain ⟨f, rfl⟩ : ∃ f, fuel = f + 3 := ⟨fuel - 3, by omega⟩
    rw [run_chunks_tail input f chunk p len total (by omega)]
    simp [full_run, full_blocks]
  | succ q ih =>
    intro fuel chunk p len hq hf
    obtain ⟨f, rfl⟩ : ∃ f, fuel = f + 1 := ⟨fuel - 1, by omega⟩
    have h64 : 64 ≤ len := by omega
    rw [run_chunks_one _ _ _ _ _ _ (calc_chunk_full input chunk _ rfl h64),
      ih f _ (p + 64) (len - 64) (by omega) (by omega), bytes_memcpy, full_run_succ]
    rfl

/-- The run of the chunker from `init_buf_state`, in closed form. -/
theorem run_chunks_init (input chunk : Buf) (p L fuel : Nat) (hfuel : L / 64 + 3 ≤ fuel) :
    run_chunks input fuel chunk (init_buf_state p L) = some (full_run input L (L / 64) p L) :=
  run_chunks_full input L (L / 64) fuel chunk p L rfl hfuel

theorem full_blocks_flatten (input : Buf) (p q : Nat) :
    ((List.range q).map (fun j => bytes input (p + 64 * j) 64)).flatten = bytes input p (64 * q) := by
  induction q with
  | zero => simp [bytes]
  | succ q ih =>
    rw [List.range_succ, List.map_append, List.flatten_append, ih, Nat.mul_succ, bytes_append]
    simp

theorem pad_zeros_lt (len : Nat) (h : len < 64) :
    pad_zeros len = if len ≤ 55 then 55 - len else 119 - len := by
  unfold pad_zeros
  split <;> omega

theorem tail_run_flatten (input : Buf) (total p len : Nat) (h : len < 64) :
    ((tail_run input total p len).map Prod.fst).flatten =
      bytes input p len ++ [0x80] ++ List.replicate (pad_zeros len) 0 ++ len_bytes total := by
  rw [pad_zeros_lt len h]
  unfold tail_run
  split
  · simp
  · have e : 119 - len = (63 - len) + 56 := by omega
    simp [e, List.replicate_add]

theorem full_run_flatten (input : Buf) (total p len : Nat) :
    ((full_run input total (len / 64) p len).map Prod.fst).flatten =
      bytes input p len ++ [0x80] ++ List.replicate (pad_zeros len) 0 ++ len_bytes total := by
  have hz : pad_zeros len = pad_zeros (len - 64 * (len / 64)) := by
    unfold pad_zeros
    omega
  have hb : bytes input p len = bytes input p (64 * (len / 64)) ++
      bytes input (p + 64 * (len / 64)) (len - 64 * (len / 64)) := by
    rw [← bytes_append]
    exact congrArg _ (by omega)
  rw [full_run, full_blocks, List.map_append, List.flatten_append, List.map_map,
    tail_run_flatten input total _ _ (by omega), hz, hb]
  have e : (Prod.fst ∘ fun j => (bytes input (p + 64 * j) 64,
      ({ p := p + 64 * (j + 1), len := len - 64 * (j + 1), total_len := total,
         single_one_delivered := false, total_len_delivered := false } : buffer_state))) =
      fun j => bytes input (p + 64 * j) 64 := rfl
  rw [e, full_blocks_flatten]
  simp

theorem tail_run_length (input : Buf) (total p len : Nat) :
    (tail_run input total p len).length = if len ≤ 55 then 1 else 2 := by
  unfold tail_run
  split <;> rfl

theorem full_run_length (input : Buf) (total p len : Nat) :
    (full_run input total (len / 64) p len).length =
      if len % 64 ≤ 55 then len / 64 + 1 else len / 64 + 2 := by
  have e : len - 64 * (len / 64) = len % 64 := by omega
  simp only [full_run, full_blocks, List.length_append, List.length_map, List.length_range,
    tail_run_length, e]
  split <;> rfl

theorem full_blocks_flag (input : Buf) (total q p len : Nat) :
    ∀ x ∈ full_blocks input total q p len,
      x.2.single_one_delivered = false ∧ x.2.total_len_delivered = false := by
  intro x hx
  obtain ⟨j, -, rfl⟩ := List.mem_map.mp hx
  exact ⟨rfl, rfl⟩

theorem tail_run_split (input : Buf) (total p len : Nat) (hlen : len < 64) :
    ∃ bs last, tail_run input total p len = bs ++ [last] ∧
      (∀ x ∈ bs, x.2.total_len_delivered = false) ∧
      last.2 = { p := p + len, len := 0, total_len := total,
                 single_one_delivered := true, total_len_delivered := true } ∧
      ∃ pre, pre.length = 56 ∧ last.1 = pre ++ len_bytes total := by
  unfold tail_run
  split
  · refine ⟨[], _, rfl, ?_, rfl, _, ?_, rfl⟩
    · intro x hx
      cases hx
    · simp [bytes_length]
      omega
  · refine ⟨[_], _, rfl, ?_, rfl, _, ?_, rfl⟩
    · intro x hx
      rw [List.mem_singleton.mp hx]
    · simp

theorem full_run_split (input : Buf) (total p len : Nat) :
    ∃ bs last, full_run input total (len / 64) p len = bs ++ [last] ∧
      (∀ x ∈ bs, x.2.total_len_delivered = false) ∧
      last.2 = { p := p + len, len := 0, total_len := total,
                 single_one_delivered := true, total_len_delivered := true } ∧
      ∃ pre, pre.length = 56 ∧ last.1 = pre ++ len_bytes total := by
  have hp : p + 64 * (len / 64) + (len - 64 * (len / 64)) = p + len := by omega
  obtain ⟨bs, last, h1, h2, h3, h4⟩ :=
    tail_run_split input total (p + 64 * (len / 64)) (len - 64 * (len / 64)) (by omega)
  refine ⟨full_blocks input total (len / 64) p len ++ bs, last, ?_, ?_, ?_, h4⟩
  · rw [full_run, h1, List.append_assoc]
  · intro x hx
    rcases List.mem_append.mp hx with hx | hx
    · exact (full_blocks_flag input total _ p len x hx).2
    · exact h2 x hx
  · rw [h3, hp]

theorem full_run_single (input : Buf) (total p len : Nat) :
    (full_run input total (len / 64) p len).map (fun x => x.2.single_one_delivered) =
      List.replicate (len / 64) false ++
        List.replicate ((full_run input total (len / 64) p len).length - len / 64) true := by
  simp only [full_run, full_blocks, List.map_append, List.map_map, List.length_append,
    List.length_map, List.length_range, Nat.add_sub_cancel_left]
  congr 1
  · apply List.ext_getElem <;> simp
  · unfold tail_run
    split <;> rfl

theorem full_run_block_length (input : Buf) (total p len : Nat) :
    ∀ x ∈ full_run input total (len / 64) p len, x.1.length = 64 := by
  intro x hx
  simp only [full_run, full_blocks, List.mem_append, List.mem_map, List.mem_range] at hx
  rcases hx with ⟨j, -, rfl⟩ | hx
  · simp [bytes_length]
  · unfold tail_run at hx
    have hl : len - 64 * (len / 64) < 64 := by omega
    split at hx
    · rw [List.mem_singleton.mp hx]
      simp [bytes_length, len_bytes]
      omega
    · simp only [List.mem_cons, List.mem_singleton, List.not_mem_nil, or_false] at hx
      rcases hx with rfl | rfl
      · simp [bytes_length]
        omega
      · simp [len_bytes]

theorem chunk_calls_done (input : Buf) (state : buffer_state)
    (h : state.total_len_delivered = true) :
    ∀ (m : Nat) (chunk : Buf), ∀ c ∈ chunk_calls input m chunk state,
      c.ret = 0 ∧ c.before = state ∧ c.after = state := by
  intro m
  induction m with
  | zero => intro chunk c hc; simp [chunk_calls] at hc
  | succ m ih =>
    intro chunk c hc
    simp only [chunk_calls, calc_chunk_done input chunk state h, List.mem_cons] at hc
    rcases hc with rfl | hc
    · exact ⟨rfl, rfl, rfl⟩
    · exact ih chunk c hc

theorem len_bytes_eq_BE64 (L : Nat) : len_bytes L = BE64 (8 * L % 2 ^ 64) := by
  simp only [len_bytes, BE64, List.range, List.range.loop, List.map_cons, List.map_nil,
    Nat.shiftRight_eq_div_pow, Nat.shiftLeft_eq]
  norm_num
  refine ⟨?_, ?_, ?_, ?_, ?_, ?_, ?_, ?_⟩ <;> omega

/-! ## The chunker: claims -/

/-- C4: the concatenation of all blocks that successive `calc_chunk` calls return from
`init_buf_state (input, L)` up to the first call returning `0` is the `L` input bytes, one
byte `0x80`, `(55 - L) mod 64` zero bytes and the 8-byte length trailer; every block has
64 bytes, so the total length is a multiple of 64; and the marker flag is clear after each
of the first `L / 64` calls and set after every later one, so exactly one call writes the
marker. -/
theorem chunker_concat_is_padded_input (input chunk : Buf) (p L fuel : Nat)
    (hfuel : L / 64 + 3 ≤ fuel) :
    ∃ bs, run_chunks input fuel chunk (init_buf_state p L) = some bs ∧
      (bs.map Prod.fst).flatten =
        bytes input p L ++ [0x80] ++ List.replicate ((55 - (L : Int)) % 64).toNat 0 ++
          len_bytes L ∧
      (∀ b ∈ bs.map Prod.fst, b.length = 64) ∧
      (bs.map Prod.fst).flatten.length % 64 = 0 ∧
      L / 64 < bs.length ∧
      bs.map (fun x => x.2.single_one_delivered) =
        List.replicate (L / 64) false ++ List.replicate (bs.length - L / 64) true := by
  refine ⟨_, run_chunks_init input chunk p L fuel hfuel, ?_, ?_, ?_, ?_, ?_⟩
  · have e : ((55 - (L : Int)) % 64).toNat = pad_zeros L := by
      unfold pad_zeros
      omega
    rw [e, full_run_flatten]
  · intro b hb
    obtain ⟨x, hx, rfl⟩ := List.mem_map.mp hb
    exact full_run_block_length input L p L x hx
  · rw [full_run_flatten]
    simp only [List.length_append, bytes_length, List.length_replicate, List.length_singleton,
      len_bytes, List.length_cons, List.length_nil, pad_zeros]
    omega
  · rw [full_run_length]
    split <;> omega
  · exact full_run_single input L p L

theorem chunker_concat_is_padded_input_witness :
    ∃ bs, run_chunks (ofList [0x61, 0x62, 0x63]) 3 (fun _ => 0) (init_buf_state 0 3) = some bs ∧
      (bs.map Prod.fst).flatten =
        bytes (ofList [0x61, 0x62, 0x63]) 0 3 ++ [0x80] ++
          List.replicate ((55 - ((3 : Nat) : Int)) % 64).toNat 0 ++ len_bytes 3 ∧
      (∀ b ∈ bs.map Prod.fst, b.length = 64) ∧
      (bs.map Prod.fst).flatten.length % 64 = 0 ∧
      3 / 64 < bs.length ∧
      bs.map (fun x => x.2.single_one_delivered) =
        List.replicate (3 / 64) false ++ List.replicate (bs.length - 3 / 64) true :=
  chunker_concat_is_padded_input (ofList [0x61, 0x62, 0x63]) (fun _ => 0) 0 3 3 (by decide)

/-- C5: the last 8 bytes of the last block of a run are the bytes of the shift sequence
of `calc_chunk` on `L`, which are the big-endian 64-bit encoding of `(8 * L) mod 2 ^ 64`;
for `L < 2 ^ 61` that is the encoding of the exact bit length `8 * L`. -/
theorem trailer_is_BE64_of_bit_length (input chunk : Buf) (p L fuel : Nat)
    (hfuel : L / 64 + 3 ≤ fuel) :
    ∃ bs last, run_chunks input fuel chunk (init_buf_state p L) = some (bs ++ [last]) ∧
      last.1.length = 64 ∧
      last.1.drop 56 = len_bytes L ∧
      last.1.drop 56 = BE64 (8 * L % 2 ^ 64) ∧
      (L < 2 ^ 61 → last.1.drop 56 = BE64 (8 * L)) := by
  obtain ⟨bs, last, h1, -, -, pre, hpre, h4⟩ := full_run_split input L p L
  have hd : last.1.drop 56 = len_bytes L := by
    rw [h4]
    exact List.drop_left' hpre
  refine ⟨bs, last, ?_, ?_, hd, ?_, ?_⟩
  · rw [run_chunks_init input chunk p L fuel hfuel, h1]
  · rw [h4]
    simp [hpre, len_bytes]
  · rw [hd, len_bytes_eq_BE64]
  · intro hL
    rw [hd, len_bytes_eq_BE64, Nat.mod_eq_of_lt (by omega)]

theorem trailer_is_BE64_of_bit_length_witness :
    ∃ bs last, run_chunks (fun _ => 0) 8388611 (fun _ => 0) (init_buf_state 0 (2 ^ 29)) =
        some (bs ++ [last]) ∧
      last.1.drop 56 = [0x00, 0x00, 0x00, 0x01, 0x00, 0x00, 0x00, 0x00] := by
  obtain ⟨bs, last, h1, -, -, -, h5⟩ :=
    trailer_is_BE64_of_bit_length (fun _ => 0) (fun _ => 0) 0 (2 ^ 29) 8388611 (by norm_num)
  refine ⟨bs, last, h1, ?_⟩
  rw [h5 (by norm_num)]
  decide

theorem full_run_56 (input : Buf) (total p len : Nat) (h : len % 64 = 56) :
    (full_run input total (len / 64) p len).map Prod.fst =
      (full_blocks input total (len / 64) p len).map Prod.fst ++
        [bytes input (p + 64 * (len / 64)) 56 ++ [0x80] ++ List.replicate 7 0,
         List.replicate 56 0 ++ len_bytes total] := by
  have e : len - 64 * (len / 64) = 56 := by omega
  simp [full_run, tail_run, e]

/-- C6: a run of the chunker on `L` bytes has `L / 64 + 1` blocks when `L mod 64 ≤ 55`
and `L / 64 + 2` blocks when `L mod 64 ≥ 56`; when `L mod 64 = 56` the block holding the
last 56 data bytes ends with the marker and 7 zero bytes, and exactly one block follows
it: 56 zero bytes and the trailer. -/
theorem chunker_block_count (input chunk : Buf) (p L fuel : Nat) (hfuel : L / 64 + 3 ≤ fuel) :
    ∃ bs, run_chunks input fuel chunk (init_buf_state p L) = some bs ∧
      (L % 64 ≤ 55 → bs.length = L / 64 + 1) ∧
      (56 ≤ L % 64 → bs.length = L / 64 + 2) ∧
      (L % 64 = 56 → ∃ pre, pre.length = L / 64 ∧
        bs.map Prod.fst = pre ++
          [bytes input (p + 64 * (L / 64)) 56 ++ [0x80] ++ List.replicate 7 0,
           List.replicate 56 0 ++ len_bytes L]) := by
  refine ⟨_, run_chunks_init input chunk p L fuel hfuel, ?_, ?_, ?_⟩
  · intro h
    rw [full_run_length, if_pos h]
  · intro h
    rw [full_run_length, if_neg (by omega)]
  · intro h
    exact ⟨_, by simp [full_blocks], full_run_56 input L p L h⟩

theorem chunker_block_count_witness :
    (∃ bs, run_chunks (fun _ => 0) 3 (fun _ => 0) (init_buf_state 0 55) = some bs ∧
      bs.length = 1) ∧
    (∃ bs, run_chunks (fun _ => 0) 3 (fun _ => 0) (init_buf_state 0 56) = some bs ∧
      bs.length = 2 ∧
      bs.map Prod.fst = [List.replicate 56 0 ++ [0x80] ++ List.replicate 7 0,
        List.replicate 56 0 ++ len_bytes 56]) ∧
    (∃ bs, run_chunks (fun _ => 0) 3 (fun _ => 0) (init_buf_state 0 57) = some bs ∧
      bs.length = 2) ∧
    (∃ bs, run_chunks (fun _ => 0) 3 (fun _ => 0) (init_buf_state 0 63) = some bs ∧
      bs.length = 2) ∧
    (∃ bs, run_chunks (fun _ => 0) 4 (fun _ => 0) (init_buf_state 0 64) = some bs ∧
      bs.length = 2) ∧
    (∃ bs, run_chunks (fun _ => 0) 4 (fun _ => 0) (init_buf_state 0 65) = some bs ∧
      bs.length = 2) := by
  refine ⟨?_, ?_, ?_, ?_, ?_, ?_⟩
  · obtain ⟨bs, h, h1, -, -⟩ :=
      chunker_block_count (fun _ => 0) (fun _ => 0) 0 55 3 (by decide)
    exact ⟨bs, h, h1 (by decide)⟩
  · obtain ⟨bs, h, -, h2, h3⟩ :=
      chunker_block_count (fun _ => 0) (fun _ => 0) 0 56 3 (by decide)
    obtain ⟨pre, hpre, h4⟩ := h3 (by decide)
    have hnil : pre = [] := List.length_eq_zero.mp hpre
    subst hnil
    exact ⟨bs, h, h2 (by decide), h4⟩
  · obtain ⟨bs, h, -, h2, -⟩ :=
      chunker_block_count (fun _ => 0) (fun _ => 0) 0 57 3 (by decide)
    exact ⟨bs, h, h2 (by decide)⟩
  · obtain ⟨bs, h, -, h2, -⟩ :=
      chunker_block_count (fun _ => 0) (fun _ => 0) 0 63 3 (by decide)
    exact ⟨bs, h, h2 (by decide)⟩
  · obtain ⟨bs, h, h1, -, -⟩ :=
      chunker_block_count (fun _ => 0) (fun _ => 0) 0 64 4 (by decide)
    exact ⟨bs, h, h1 (by decide)⟩
  · obtain ⟨bs, h, h1, -, -⟩ :=
      chunker_block_count (fun _ => 0) (fun _ => 0) 0 65 4 (by decide)
    exact ⟨bs, h, h1 (by decide)⟩

/-- C7: on the zero-length input the first `calc_chunk` call after `init_buf_state`
returns `1` with the block `0x80` followed by 63 zero bytes, and the second call
returns `0`. -/
theorem zero_length_one_block (input chunk : Buf) (p : Nat) :
    (calc_chunk input chunk (init_buf_state p 0)).1 = 1 ∧
    bytes (calc_chunk input chunk (init_buf_state p 0)).2.1 0 64 = 0x80 :: List.replicate 63 0 ∧
    (calc_chunk input (calc_chunk input chunk (init_buf_state p 0)).2.1
      (calc_chunk input chunk (init_buf_state p 0)).2.2).1 = 0 := by
  have h := calc_chunk_last input chunk p 0 0 (by decide)
  have hb := calc_chunk_last_bytes input chunk p 0 0 (by decide)
  simp only [init_buf_state]
  rw [h]
  refine ⟨rfl, ?_, ?_⟩
  · rw [hb]
    rfl
  · rw [calc_chunk_done _ _ _ rfl]

/-- C8: a cursor with `total_len_delivered` set is terminal, `calc_chunk` returns `0`
and leaves the cursor and the block buffer as they are; and in a run from
`init_buf_state` the flag is clear after every block-returning call but the last, set
after the last, and any number of further calls return `0` and leave the cursor
unchanged. -/
theorem trailer_state_terminal_reached_once (input chunk : Buf) (state : buffer_state)
    (p L fuel : Nat) (hfuel : L / 64 + 3 ≤ fuel) :
    (state.total_len_delivered = true → calc_chunk input chunk state = (0, chunk, state)) ∧
    (init_buf_state p L).total_len_delivered = false ∧
    ∃ bs last, run_chunks input fuel chunk (init_buf_state p L) = some (bs ++ [last]) ∧
      (∀ x ∈ bs, x.2.total_len_delivered = false) ∧
      last.2.total_len_delivered = true ∧
      ∀ (m : Nat) (chunk1 : Buf), ∀ c ∈ chunk_calls input m chunk1 last.2,
        c.ret = 0 ∧ c.before = last.2 ∧ c.after = last.2 := by
  refine ⟨calc_chunk_done input chunk state, rfl, ?_⟩
  obtain ⟨bs, last, h1, h2, h3, -⟩ := full_run_split input L p L
  have ht : last.2.total_len_delivered = true := by rw [h3]
  refine ⟨bs, last, ?_, h2, ht, chunk_calls_done input last.2 ht⟩
  rw [run_chunks_init input chunk p L fuel hfuel, h1]

theorem trailer_state_terminal_reached_once_witness :
    ∃ bs last, run_chunks (fun _ => 0) 4 (fun _ => 0) (init_buf_state 0 120) = some (bs ++ [last]) ∧
      (∀ x ∈ bs, x.2.total_len_delivered = false) ∧
      last.2.total_len_delivered = true ∧
      ∀ (m : Nat) (chunk1 : Buf), ∀ c ∈ chunk_calls (fun _ => 0) m chunk1 last.2,
        c.ret = 0 ∧ c.before = last.2 ∧ c.after = last.2 :=
  (trailer_state_terminal_reached_once (fun _ => 0) (fun _ => 0) (init_buf_state 0 0) 0 120 4
    (by decide)).2.2

/-- C9: on a cursor with `total_len_delivered` clear and at least 64 unconsumed bytes,
`calc_chunk` returns `1`, the block is the next 64 input bytes, the cursor advances by
64, `len` drops by 64, the other fields stay, and the buffer beyond the block is
untouched. -/
theorem full_block_step (input chunk : Buf) (state : buffer_state)
    (h : state.total_len_delivered = false) (hlen : 64 ≤ state.len) :
    (calc_chunk input chunk state).1 = 1 ∧
    bytes (calc_chunk input chunk state).2.1 0 64 = bytes input state.p 64 ∧
    (∀ i, 64 ≤ i → (calc_chunk input chunk state).2.1 i = chunk i) ∧
    (calc_chunk input chunk state).2.2.p = state.p + 64 ∧
    (calc_chunk input chunk state).2.2.len = state.len - 64 ∧
    (calc_chunk input chunk state).2.2.total_len = state.total_len ∧
    (calc_chunk input chunk state).2.2.single_one_delivered = state.single_one_delivered ∧
    (calc_chunk input chunk state).2.2.total_len_delivered = state.total_len_delivered := by
  rw [calc_chunk_full input chunk state h hlen]
  refine ⟨rfl, bytes_memcpy input chunk state.p 64, ?_, rfl, rfl, rfl, rfl, rfl⟩
  intro i hi
  exact memcpy_out chunk 0 input state.p 64 i (by omega)

theorem full_block_step_witness :
    (calc_chunk (ofList (List.range 70)) (fun _ => 0) (init_buf_state 0 70)).1 = 1 ∧
    bytes (calc_chunk (ofList (List.range 70)) (fun _ => 0) (init_buf_state 0 70)).2.1 0 64 =
      List.range 64 ∧
    (calc_chunk (ofList (List.range 70)) (fun _ => 0) (init_buf_state 0 70)).2.2.len = 6 := by
  obtain ⟨h1, h2, -, -, h5, -⟩ :=
    full_block_step (ofList (List.range 70)) (fun _ => 0) (init_buf_state 0 70) rfl (by decide)
  refine ⟨h1, ?_, h5⟩
  rw [h2]
  decide

/-! ## The message schedule -/

theorem getD_set_ne (w : List Nat) (i j v : Nat) (h : j ≠ i) :
    (w.set i v).getD j 0 = w.getD j 0 := by
  simp only [List.getD_eq_getElem?_getD, List.getElem?_set]
  rw [if_neg (fun e => h e.symm)]

theorem getD_set_eq (w : List Nat) (i v : Nat) (h : i < w.length) :
    (w.set i v).getD i 0 = v := by
  simp [List.getD_eq_getElem?_getD, List.getElem?_set, h]

/-- A loop `for (i = 0; i < n; i++) w[i] = f (i);` on an array. -/
theorem foldl_set_range (f : Nat → Nat) (w : List Nat) (n : Nat) :
    ((List.range n).foldl (fun w i => w.set i (f i)) w).length = w.length ∧
    ∀ j, ((List.range n).foldl (fun w i => w.set i (f i)) w).getD j 0 =
      if j < n ∧ j < w.length then f j else w.getD j 0 := by
  induction n with
  | zero => simp
  | succ n ih =>
    rw [List.range_succ, List.foldl_append]
    simp only [List.foldl_cons, List.foldl_nil, List.length_set]
    refine ⟨ih.1, fun j => ?_⟩
    by_cases hj : j = n
    · subst hj
      by_cases hl : j < w.length
      · rw [getD_set_eq _ _ _ (by rw [ih.1]; exact hl), if_pos ⟨by omega, hl⟩]
      · rw [if_neg (by omega)]
        simp only [List.getD_eq_getElem?_getD]
        rw [List.getElem?_eq_none (by simp [ih.1]; omega), List.getElem?_eq_none (by omega)]
    · rw [getD_set_ne _ _ _ _ hj, ih.2 j]
      by_cases h1 : j < n ∧ j < w.length
      · rw [if_pos h1, if_pos ⟨by omega, h1.2⟩]
      · rw [if_neg h1, if_neg (by omega)]

theorem be32_eq (b0 b1 b2 b3 : Nat) (h0 : b0 < 256) (h1 : b1 < 256) (h2 : b2 < 256)
    (h3 : b3 < 256) :
    ((b0 <<< 24) % 2 ^ 32) ||| ((b1 <<< 16) % 2 ^ 32) ||| ((b2 <<< 8) % 2 ^ 32) ||| b3 =
      b0 * 2 ^ 24 + b1 * 2 ^ 16 + b2 * 2 ^ 8 + b3 := by
  simp only [Nat.shiftLeft_eq]
  rw [Nat.mod_eq_of_lt (by omega), Nat.mod_eq_of_lt (by omega), Nat.mod_eq_of_lt (by omega)]
  have e1 : b0 * 2 ^ 24 ||| b1 * 2 ^ 16 = b0 * 2 ^ 24 + b1 * 2 ^ 16 := by
    have := Nat.mul_add_lt_is_or (show b1 * 2 ^ 16 < 2 ^ 24 by omega) b0
    rw [Nat.mul_comm (2 ^ 24) b0] at this
    exact this.symm
  have e2 : (b0 * 2 ^ 24 + b1 * 2 ^ 16) ||| b2 * 2 ^ 8 = b0 * 2 ^ 24 + b1 * 2 ^ 16 + b2 * 2 ^ 8 := by
    have := Nat.mul_add_lt_is_or (show b2 * 2 ^ 8 < 2 ^ 16 by omega) (b0 * 2 ^ 8 + b1)
    have e : 2 ^ 16 * (b0 * 2 ^ 8 + b1) = b0 * 2 ^ 24 + b1 * 2 ^ 16 := by omega
    rw [e] at this
    exact this.symm
  have e3 : (b0 * 2 ^ 24 + b1 * 2 ^ 16 + b2 * 2 ^ 8) ||| b3 =
      b0 * 2 ^ 24 + b1 * 2 ^ 16 + b2 * 2 ^ 8 + b3 := by
    have := Nat.mul_add_lt_is_or (show b3 < 2 ^ 8 by omega) (b0 * 2 ^ 16 + b1 * 2 ^ 8 + b2)
    have e : 2 ^ 8 * (b0 * 2 ^ 16 + b1 * 2 ^ 8 + b2) =
        b0 * 2 ^ 24 + b1 * 2 ^ 16 + b2 * 2 ^ 8 := by omega
    rw [e] at this
    exact this.symm
  rw [e1, e2, e3]

theorem load_words_spec (chunk : Buf) (w : List Nat) :
    (load_words chunk w).length = w.length ∧
    ∀ j, (load_words chunk w).getD j 0 =
      if j < 16 ∧ j < w.length then
        ((chunk (4 * j) <<< 24) % 2 ^ 32) ||| ((chunk (4 * j + 1) <<< 16) % 2 ^ 32) |||
          ((chunk (4 * j + 2) <<< 8) % 2 ^ 32) ||| chunk (4 * j + 3)
      else w.getD j 0 :=
  foldl_set_range (fun i => ((chunk (4 * i) <<< 24) % 2 ^ 32) |||
    ((chunk (4 * i + 1) <<< 16) % 2 ^ 32) ||| ((chunk (4 * i + 2) <<< 8) % 2 ^ 32) |||
      chunk (4 * i + 3)) w 16

theorem load_words_congr (chunk chunk1 : Buf) (w : List Nat)
    (h : ∀ i, i < 64 → chunk i = chunk1 i) : load_words chunk w = load_words chunk1 w := by
  unfold load_words
  apply List.foldl_ext
  intro a i hi
  have hi : i < 16 := List.mem_range.mp hi
  rw [h (4 * i) (by omega), h (4 * i + 1) (by omega), h (4 * i + 2) (by omega),
    h (4 * i + 3) (by omega)]

theorem extend_step_length (w : List Nat) (i : Nat) : (extend_step w i).length = w.length := by
  simp [extend_step]

theorem extend_step_ne (w : List Nat) (i j : Nat) (h : j ≠ i) :
    (extend_step w i).getD j 0 = w.getD j 0 := by
  simp only [extend_step]
  exact getD_set_ne _ _ _ _ h

theorem extend_step_eq (w : List Nat) (i : Nat) (h : i < w.length) :
    (extend_step w i).getD i 0 = ext_word w i := by
  simp only [extend_step, ext_word]
  exact getD_set_eq _ _ _ h

theorem ext_word_congr (w w1 : List Nat) (i : Nat) (h16 : 16 ≤ i)
    (h : ∀ j, j < i → w.getD j 0 = w1.getD j 0) : ext_word w i = ext_word w1 i := by
  simp only [ext_word]
  rw [h (i - 15) (by omega), h (i - 2) (by omega), h (i - 16) (by omega), h (i - 7) (by omega)]

theorem extend_run_length (w : List Nat) (a n : Nat) :
    ((List.range' a n).foldl extend_step w).length = w.length := by
  induction n generalizing w a with
  | zero => rfl
  | succ n ih => rw [List.range'_succ, List.foldl_cons, ih, extend_step_length]

theorem extend_run_spec (w : List Nat) (n : Nat) (hn : 16 + n ≤ w.length) :
    (∀ j, j < 16 → ((List.range' 16 n).foldl extend_step w).getD j 0 = w.getD j 0) ∧
    ∀ i, 16 ≤ i → i < 16 + n →
      ((List.range' 16 n).foldl extend_step w).getD i 0 =
        ext_word ((List.range' 16 n).foldl extend_step w) i := by
  induction n with
  | zero => exact ⟨fun j _ => rfl, fun i h1 h2 => by omega⟩
  | succ n ih =>
    obtain ⟨ih1, ih2⟩ := ih (by omega)
    rw [List.range'_concat, List.foldl_append]
    simp only [List.foldl_cons, List.foldl_nil, Nat.one_mul]
    refine ⟨fun j hj => ?_, fun i h1 h2 => ?_⟩
    · rw [extend_step_ne _ _ _ (by omega), ih1 j hj]
    · have hc : ∀ j, j < i →
          (extend_step ((List.range' 16 n).foldl extend_step w) (16 + n)).getD j 0 =
            ((List.range' 16 n).foldl extend_step w).getD j 0 :=
        fun j hj => extend_step_ne _ _ _ (by omega)
      rw [ext_word_congr _ _ i h1 hc]
      by_cases hi : i = 16 + n
      · subst hi
        exact extend_step_eq _ _ (by rw [extend_run_length]; omega)
      · rw [extend_step_ne _ _ _ hi]
        exact ih2 i h1 (by omega)

theorem schedule_congr (chunk chunk1 : Buf) (w w1 : List Nat) (hw : w.length = w1.length)
    (h : ∀ i, i < 64 → chunk i = chunk1 i) : schedule chunk w = schedule chunk1 w1 := by
  unfold schedule
  rw [List.map_const', List.map_const', hw, load_words_congr chunk chunk1 _ h]

/-- C10: the message schedule `w` built from a block has 64 words; its first 16 words are
the big-endian words of the block; each later word is
`(w[i-16] + s0 + w[i-7] + s1) mod 2 ^ 32` with `s0`, `s1` the rotate/shift mixes of
`w[i-15]` and `w[i-2]`; and it is the same for any previous content of `w` and any block
buffer holding the same 64 bytes. -/
theorem schedule_spec (chunk : Buf) (w0 : List Nat) (hw : w0.length = 64)
    (hb : ∀ j, j < 64 → chunk j < 256) :
    (schedule chunk w0).length = 64 ∧
    (∀ i, i < 16 → (schedule chunk w0).getD i 0 =
      chunk (4 * i) * 2 ^ 24 + chunk (4 * i + 1) * 2 ^ 16 + chunk (4 * i + 2) * 2 ^ 8 +
        chunk (4 * i + 3)) ∧
    (∀ i, 16 ≤ i → i < 64 → (schedule chunk w0).getD i 0 =
      ((schedule chunk w0).getD (i - 16) 0 +
        (right_rot ((schedule chunk w0).getD (i - 15) 0) 7 ^^^
          right_rot ((schedule chunk w0).getD (i - 15) 0) 18 ^^^
          ((schedule chunk w0).getD (i - 15) 0 >>> 3)) +
        (schedule chunk w0).getD (i - 7) 0 +
        (right_rot ((schedule chunk w0).getD (i - 2) 0) 17 ^^^
          right_rot ((schedule chunk w0).getD (i - 2) 0) 19 ^^^
          ((schedule chunk w0).getD (i - 2) 0 >>> 10))) % 2 ^ 32) ∧
    (∀ (chunk1 : Buf) (w1 : List Nat), w1.length = 64 → bytes chunk1 0 64 = bytes chunk 0 64 →
      schedule chunk1 w1 = schedule chunk w0) := by
  have hl : (load_words chunk (w0.map (fun _ => 0))).length = 64 := by
    rw [(load_words_spec chunk _).1, List.length_map, hw]
  obtain ⟨h1, h2⟩ := extend_run_spec (load_words chunk (w0.map (fun _ => 0))) 48 (by omega)
  refine ⟨?_, ?_, ?_, ?_⟩
  · unfold schedule
    rw [extend_run_length, hl]
  · intro i hi
    unfold schedule
    rw [h1 i hi, (load_words_spec chunk _).2 i, if_pos ⟨hi, by simp [hw]; omega⟩]
    exact be32_eq _ _ _ _ (hb _ (by omega)) (hb _ (by omega)) (hb _ (by omega)) (hb _ (by omega))
  · intro i h16 h64
    exact h2 i h16 (by omega)
  · intro chunk1 w1 hw1 hbytes
    apply schedule_congr chunk1 chunk w1 w0 (by rw [hw1, hw])
    intro i hi
    have := congrArg (fun l => l.getD i 0) hbytes
    simpa [bytes, List.getD_eq_getElem?_getD, hi] using this

theorem schedule_spec_witness :
    (schedule (calc_chunk (ofList [0x61, 0x62, 0x63]) (fun _ => 0) (init_buf_state 0 3)).2.1
      (List.replicate 64 0)).getD 0 0 = 0x61626380 := by
  have h := (schedule_spec
    (calc_chunk (ofList [0x61, 0x62, 0x63]) (fun _ => 0) (init_buf_state 0 3)).2.1
    (List.replicate 64 0) (by decide) (by decide)).2.1 0 (by decide)
  rw [h]
  decide

/-! ## The block loop of `calc_sha_256` -/

theorem list_ext_getD (l1 l2 : List Nat) (hl : l1.length = l2.length)
    (h : ∀ j, l1.getD j 0 = l2.getD j 0) : l1 = l2 := by
  apply List.ext_getElem hl
  intro i h1 h2
  have := h i
  simpa [List.getD_eq_getElem?_getD, List.getElem?_eq_getElem h1,
    List.getElem?_eq_getElem h2] using this

theorem foldl_length_inv {β : Type} (f : List Nat → β → List Nat)
    (hf : ∀ a b, (f a b).length = a.length) (a : List Nat) (l : List β) :
    (l.foldl f a).length = a.length := by
  induction l generalizing a with
  | nil => rfl
  | cons x l ih => rw [List.foldl_cons, ih, hf]

theorem schedule_length (chunk : Buf) (w : List Nat) : (schedule chunk w).length = w.length := by
  unfold schedule
  rw [extend_run_length, (load_words_spec chunk _).1, List.length_map]

theorem round_length (w ah : List Nat) (i : Nat) : (round w ah i).length = ah.length := by
  simp [round]

theorem ofList_bytes (b : Buf) (n i : Nat) (h : i < n) : ofList (bytes b 0 n) i = b i := by
  simp [ofList, bytes, List.getD_eq_getElem?_getD, h]

theorem init_ah_eq (h ah ah1 : List Nat) (hl : ah.length = 8) (hl1 : ah1.length = 8) :
    (List.range 8).foldl (fun ah i => ah.set i (h.getD i 0)) ah =
      (List.range 8).foldl (fun ah i => ah.set i (h.getD i 0)) ah1 := by
  have g1 := foldl_set_range (fun i => h.getD i 0) ah 8
  have g2 := foldl_set_range (fun i => h.getD i 0) ah1 8
  apply list_ext_getD _ _ (by rw [g1.1, g2.1, hl, hl1])
  intro j
  rw [g1.2 j, g2.2 j, hl, hl1]
  split
  · rfl
  · simp only [List.getD_eq_getElem?_getD]
    rw [List.getElem?_eq_none (by omega), List.getElem?_eq_none (by omega)]

theorem process_chunk_h (l : locals) (hw : l.w.length = 64) (hah : l.ah.length = 8) :
    (process_chunk l).h = compress l.h (bytes l.chunk 0 64) := by
  simp only [process_chunk, compress]
  rw [schedule_congr l.chunk (ofList (bytes l.chunk 0 64)) l.w (List.replicate 64 0)
      (by simp [hw]) (fun i hi => (ofList_bytes l.chunk 64 i hi).symm),
    init_ah_eq l.h l.ah (List.replicate 8 0) hah (by simp)]

theorem process_chunk_frame (l : locals) :
    (process_chunk l).chunk = l.chunk ∧ (process_chunk l).state = l.state ∧
    (process_chunk l).w.length = l.w.length ∧ (process_chunk l).ah.length = l.ah.length ∧
    (process_chunk l).h.length = l.h.length := by
  refine ⟨rfl, rfl, ?_, ?_, ?_⟩
  · simp only [process_chunk]
    exact schedule_length _ _
  · simp only [process_chunk]
    rw [foldl_length_inv _ (round_length _), foldl_length_inv _ (fun a b => by simp)]
  · simp only [process_chunk]
    rw [foldl_length_inv _ (fun a b => by simp)]

theorem compress_length (h block : List Nat) : (compress h block).length = h.length :=
  (process_chunk_frame _).2.2.2.2

theorem sha_loop_eq (input : Buf) :
    ∀ (fuel : Nat) (l : locals) (bs : List (List Nat × buffer_state)),
      l.w.length = 64 → l.ah.length = 8 →
      run_chunks input fuel l.chunk l.state = some bs →
      ∃ l1, sha_loop input fuel l = some l1 ∧
        l1.h = (bs.map Prod.fst).foldl compress l.h := by
  intro fuel
  induction fuel with
  | zero => intro l bs _ _ h; simp [run_chunks] at h
  | succ fuel ih =>
    intro l bs hw hah h
    simp only [run_chunks, sha_loop] at h ⊢
    by_cases h0 : (calc_chunk input l.chunk l.state).1 = 0
    · rw [if_pos h0] at h ⊢
      cases Option.some.inj h
      exact ⟨_, rfl, rfl⟩
    · rw [if_neg h0] at h ⊢
      obtain ⟨bs1, hbs1, rfl⟩ := Option.map_eq_some'.mp h
      obtain ⟨e1, e2, e3, e4, -⟩ := process_chunk_frame
        { l with chunk := (calc_chunk input l.chunk l.state).2.1,
                 state := (calc_chunk input l.chunk l.state).2.2 }
      obtain ⟨l1, hl1, hh⟩ := ih (process_chunk
        { l with chunk := (calc_chunk input l.chunk l.state).2.1,
                 state := (calc_chunk input l.chunk l.state).2.2 }) bs1
        (by rw [e3]; exact hw) (by rw [e4]; exact hah) (by rw [e1, e2]; exact hbs1)
      refine ⟨l1, hl1, ?_⟩
      rw [hh, process_chunk_h
        { l with chunk := (calc_chunk input l.chunk l.state).2.1,
                 state := (calc_chunk input l.chunk l.state).2.2 } hw hah]
      rfl

theorem blocks_aux_flatten (bl : List (List Nat)) (h : ∀ b ∈ bl, b.length = 64) :
    bl.flatten.length = 64 * bl.length ∧ blocks_aux bl.length bl.flatten = bl := by
  induction bl with
  | nil => exact ⟨rfl, rfl⟩
  | cons b bl ih =>
    obtain ⟨i1, i2⟩ := ih (fun x hx => h x (List.mem_cons_of_mem _ hx))
    have hb : b.length = 64 := h b (List.mem_cons_self _ _)
    refine ⟨?_, ?_⟩
    · simp only [List.flatten_cons, List.length_append, List.length_cons, i1, hb]
      omega
    · simp only [List.flatten_cons, List.length_cons, blocks_aux]
      rw [List.take_left' hb, List.drop_left' hb, i2]

theorem blocks_flatten (bl : List (List Nat)) (h : ∀ b ∈ bl, b.length = 64) :
    blocks bl.flatten = bl := by
  obtain ⟨h1, h2⟩ := blocks_aux_flatten bl h
  unfold blocks
  rw [h1, Nat.mul_div_cancel_left _ (by decide : 0 < 64), h2]

theorem write_hash_bytes (h : List Nat) (hash : Buf) (hl : h.length = 8) :
    bytes (write_hash h hash) 0 32 = serialise h := by
  match h, hl with
  | [a, b, c, d, e, f, g, i], _ => rfl

theorem pad_zeros_least (L : Nat) :
    (L + 1 + pad_zeros L + 8) % 64 = 0 ∧
    ∀ z, (L + 1 + z + 8) % 64 = 0 → pad_zeros L ≤ z := by
  unfold pad_zeros
  refine ⟨by omega, fun z hz => by omega⟩

/-- The digest `calc_sha_256` writes is SHA-256 in the words of the specification. -/
theorem calc_sha_256_eq_spec (fuel : Nat) (s : stack) (hash mem : Buf) (input : Nat)
    (msg : List Nat) (hw : s.w.length = 64) (hah : s.ah.length = 8)
    (hmsg : bytes mem input msg.length = msg) (hL : msg.length < 2 ^ 61)
    (hfuel : msg.length / 64 + 3 ≤ fuel) :
    (calc_sha_256 fuel s hash mem input msg.length).map (fun b => bytes b 0 32) =
      some (sha256_spec msg) := by
  obtain ⟨l1, hl1, hh⟩ := sha_loop_eq mem fuel
    { h := h_init, chunk := s.chunk, state := init_buf_state input msg.length, w := s.w,
      ah := s.ah } _ hw hah (run_chunks_init mem s.chunk input msg.length fuel hfuel)
  have hpad : ((full_run mem msg.length (msg.length / 64) input msg.length).map
      Prod.fst).flatten = padded msg := by
    rw [full_run_flatten, hmsg, len_bytes_eq_BE64, Nat.mod_eq_of_lt (by omega)]
    rfl
  have hblocks : blocks (padded msg) =
      (full_run mem msg.length (msg.length / 64) input msg.length).map Prod.fst := by
    rw [← hpad]
    apply blocks_flatten
    intro b hb
    obtain ⟨x, hx, rfl⟩ := List.mem_map.mp hb
    exact full_run_block_length mem msg.length input msg.length x hx
  have hlen : l1.h.length = 8 := by
    rw [hh, foldl_length_inv _ compress_length]
    rfl
  simp only [calc_sha_256, hl1, Option.map_some', write_hash_bytes l1.h hash hlen]
  rw [hh, sha256_spec, hblocks]

/-! ## Known answers -/

set_option maxRecDepth 100000

theorem sha256_spec_empty :
    sha256_spec [] =
      [0xe3, 0xb0, 0xc4, 0x42, 0x98, 0xfc, 0x1c, 0x14, 0x9a, 0xfb, 0xf4, 0xc8, 0x99, 0x6f,
       0xb9, 0x24, 0x27, 0xae, 0x41, 0xe4, 0x64, 0x9b, 0x93, 0x4c, 0xa4, 0x95, 0x99, 0x1b,
       0x78, 0x52, 0xb8, 0x55] := by
  decide

theorem sha256_spec_abc :
    sha256_spec [0x61, 0x62, 0x63] =
      [0xba, 0x78, 0x16, 0xbf, 0x8f, 0x01, 0xcf, 0xea, 0x41, 0x41, 0x40, 0xde, 0x5d, 0xae,
       0x22, 0x23, 0xb0, 0x03, 0x61, 0xa3, 0x96, 0x17, 0x7a, 0x9c, 0xb4, 0x10, 0xff, 0x61,
       0xf2, 0x00, 0x15, 0xad] := by
  decide

theorem sha256_spec_a55 :
    sha256_spec (List.replicate 55 0x61) =
      [0x9f, 0x43, 0x90, 0xf8, 0xd3, 0x0c, 0x2d, 0xd9, 0x2e, 0xc9, 0xf0, 0x95, 0xb6, 0x5e,
       0x2b, 0x9a, 0xe9, 0xb0, 0xa9, 0x25, 0xa5, 0x25, 0x8e, 0x24, 0x1c, 0x9f, 0x1e, 0x91,
       0x0f, 0x73, 0x43, 0x18] := by
  decide

theorem sha256_spec_a56 :
    sha256_spec (List.replicate 56 0x61) =
      [0xb3, 0x54, 0x39, 0xa4, 0xac, 0x6f, 0x09, 0x48, 0xb6, 0xd6, 0xf9, 0xe3, 0xc6, 0xaf,
       0x0f, 0x5f, 0x59, 0x0c, 0xe2, 0x0f, 0x1b, 0xde, 0x70, 0x90, 0xef, 0x79, 0x70, 0x68,
       0x6e, 0xc6, 0x73, 0x8a] := by
  decide

theorem sha256_spec_a57 :
    sha256_spec (List.replicate 57 0x61) =
      [0xf1, 0x3b, 0x2d, 0x72, 0x46, 0x59, 0xeb, 0x3b, 0xf4, 0x7f, 0x2d, 0xd6, 0xaf, 0x1a,
       0xcc, 0xc8, 0x7b, 0x81, 0xf0, 0x9f, 0x59, 0xf2, 0xb7, 0x5e, 0x5c, 0x0b, 0xed, 0x65,
       0x89, 0xdf, 0xe8, 0xc6] := by
  decide

theorem sha256_spec_a63 :
    sha256_spec (List.replicate 63 0x61) =
      [0x7d, 0x3e, 0x74, 0xa0, 0x5d, 0x7d, 0xb1, 0x5b, 0xce, 0x4a, 0xd9, 0xec, 0x06, 0x58,
       0xea, 0x98, 0xe3, 0xf0, 0x6e, 0xee, 0xcf, 0x16, 0xb4, 0xc6, 0xff, 0xf2, 0xda, 0x45,
       0x7d, 0xdc, 0x2f, 0x34] := by
  decide

theorem sha256_spec_a64 :
    sha256_spec (List.replicate 64 0x61) =
      [0xff, 0xe0, 0x54, 0xfe, 0x7a, 0xe0, 0xcb, 0x6d, 0xc6, 0x5c, 0x3a, 0xf9, 0xb6, 0x1d,
       0x52, 0x09, 0xf4, 0x39, 0x85, 0x1d, 0xb4, 0x3d, 0x0b, 0xa5, 0x99, 0x73, 0x37, 0xdf,
       0x15, 0x46, 0x68, 0xeb] := by
  decide

theorem sha256_spec_a65 :
    sha256_spec (List.replicate 65 0x61) =
      [0x63, 0x53, 0x61, 0xc4, 0x8b, 0xb9, 0xea, 0xb1, 0x41, 0x98, 0xe7, 0x6e, 0xa8, 0xab,
       0x7f, 0x1a, 0x41, 0x68, 0x5d, 0x6a, 0xd6, 0x2a, 0xa9, 0x14, 0x6d, 0x30, 0x1d, 0x4f,
       0x17, 0xeb, 0x0a, 0xe0] := by
  decide

/-! ## The digest: claims -/

/-- C1: for every byte sequence `msg` of length `L < 2 ^ 61`, `calc_sha_256` returns the
big-endian serialisation of the state obtained from the 8 initial words by folding the
per-block schedule and compression step over the consecutive 64-byte blocks of
`msg ++ [0x80] ++ (k zero bytes) ++ BE64 (8 * L)`, with `k` the least number making the
total length a multiple of 64. -/
theorem calc_sha_256_is_sha256 (fuel : Nat) (s : stack) (hash mem : Buf) (input : Nat)
    (msg : List Nat) (hw : s.w.length = 64) (hah : s.ah.length = 8)
    (hmsg : bytes mem input msg.length = msg) (hL : msg.length < 2 ^ 61)
    (hfuel : msg.length / 64 + 3 ≤ fuel) :
    (calc_sha_256 fuel s hash mem input msg.length).map (fun b => bytes b 0 32) =
      some (serialise ((blocks (msg ++ [0x80] ++ List.replicate (pad_zeros msg.length) 0 ++
        BE64 (8 * msg.length))).foldl compress h_init)) ∧
    (msg.length + 1 + pad_zeros msg.length + 8) % 64 = 0 ∧
    ∀ z, (msg.length + 1 + z + 8) % 64 = 0 → pad_zeros msg.length ≤ z :=
  ⟨calc_sha_256_eq_spec fuel s hash mem input msg hw hah hmsg hL hfuel,
    pad_zeros_least msg.length⟩

theorem calc_sha_256_is_sha256_witness :
    (calc_sha_256 4 stack0 (fun _ => 0) (ofList (List.replicate 55 0x61)) 0 55).map
        (fun b => bytes b 0 32) = some
      [0x9f, 0x43, 0x90, 0xf8, 0xd3, 0x0c, 0x2d, 0xd9, 0x2e, 0xc9, 0xf0, 0x95, 0xb6, 0x5e,
       0x2b, 0x9a, 0xe9, 0xb0, 0xa9, 0x25, 0xa5, 0x25, 0x8e, 0x24, 0x1c, 0x9f, 0x1e, 0x91,
       0x0f, 0x73, 0x43, 0x18] ∧
    (calc_sha_256 4 stack0 (fun _ => 0) (ofList (List.replicate 56 0x61)) 0 56).map
        (fun b => bytes b 0 32) = some
      [0xb3, 0x54, 0x39, 0xa4, 0xac, 0x6f, 0x09, 0x48, 0xb6, 0xd6, 0xf9, 0xe3, 0xc6, 0xaf,
       0x0f, 0x5f, 0x59, 0x0c, 0xe2, 0x0f, 0x1b, 0xde, 0x70, 0x90, 0xef, 0x79, 0x70, 0x68,
       0x6e, 0xc6, 0x73, 0x8a] ∧
    (calc_sha_256 4 stack0 (fun _ => 0) (ofList (List.replicate 57 0x61)) 0 57).map
        (fun b => bytes b 0 32) = some
      [0xf1, 0x3b, 0x2d, 0x72, 0x46, 0x59, 0xeb, 0x3b, 0xf4, 0x7f, 0x2d, 0xd6, 0xaf, 0x1a,
       0xcc, 0xc8, 0x7b, 0x81, 0xf0, 0x9f, 0x59, 0xf2, 0xb7, 0x5e, 0x5c, 0x0b, 0xed, 0x65,
       0x89, 0xdf, 0xe8, 0xc6] ∧
    (calc_sha_256 4 stack0 (fun _ => 0) (ofList (List.replicate 63 0x61)) 0 63).map
        (fun b => bytes b 0 32) = some
      [0x7d, 0x3e, 0x74, 0xa0, 0x5d, 0x7d, 0xb1, 0x5b, 0xce, 0x4a, 0xd9, 0xec, 0x06, 0x58,
       0xea, 0x98, 0xe3, 0xf0, 0x6e, 0xee, 0xcf, 0x16, 0xb4, 0xc6, 0xff, 0xf2, 0xda, 0x45,
       0x7d, 0xdc, 0x2f, 0x34] ∧
    (calc_sha_256 4 stack0 (fun _ => 0) (ofList (List.replicate 64 0x61)) 0 64).map
        (fun b => bytes b 0 32) = some
      [0xff, 0xe0, 0x54, 0xfe, 0x7a, 0xe0, 0xcb, 0x6d, 0xc6, 0x5c, 0x3a, 0xf9, 0xb6, 0x1d,
       0x52, 0x09, 0xf4, 0x39, 0x85, 0x1d, 0xb4, 0x3d, 0x0b, 0xa5, 0x99, 0x73, 0x37, 0xdf,
       0x15, 0x46, 0x68, 0xeb] ∧
    (calc_sha_256 4 stack0 (fun _ => 0) (ofList (List.replicate 65 0x61)) 0 65).map
        (fun b => bytes b 0 32) = some
      [0x63, 0x53, 0x61, 0xc4, 0x8b, 0xb9, 0xea, 0xb1, 0x41, 0x98, 0xe7, 0x6e, 0xa8, 0xab,
       0x7f, 0x1a, 0x41, 0x68, 0x5d, 0x6a, 0xd6, 0x2a, 0xa9, 0x14, 0x6d, 0x30, 0x1d, 0x4f,
       0x17, 0xeb, 0x0a, 0xe0] := by
  refine ⟨?_, ?_, ?_, ?_, ?_, ?_⟩
  · rw [← sha256_spec_a55]
    exact (calc_sha_256_is_sha256 4 stack0 (fun _ => 0) (ofList (List.replicate 55 0x61)) 0
      (List.replicate 55 0x61) rfl rfl (by decide) (by decide) (by decide)).1
  · rw [← sha256_spec_a56]
    exact (calc_sha_256_is_sha256 4 stack0 (fun _ => 0) (ofList (List.replicate 56 0x61)) 0
      (List.replicate 56 0x61) rfl rfl (by decide) (by decide) (by decide)).1
  · rw [← sha256_spec_a57]
    exact (calc_sha_256_is_sha256 4 stack0 (fun _ => 0) (ofList (List.replicate 57 0x61)) 0
      (List.replicate 57 0x61) rfl rfl (by decide) (by decide) (by decide)).1
  · rw [← sha256_spec_a63]
    exact (calc_sha_256_is_sha256 4 stack0 (fun _ => 0) (ofList (List.replicate 63 0x61)) 0
      (List.replicate 63 0x61) rfl rfl (by decide) (by decide) (by decide)).1
  · rw [← sha256_spec_a64]
    exact (calc_sha_256_is_sha256 4 stack0 (fun _ => 0) (ofList (List.replicate 64 0x61)) 0
      (List.replicate 64 0x61) rfl rfl (by decide) (by decide) (by decide)).1
  · rw [← sha256_spec_a65]
    exact (calc_sha_256_is_sha256 4 stack0 (fun _ => 0) (ofList (List.replicate 65 0x61)) 0
      (List.replicate 65 0x61) rfl rfl (by decide) (by decide) (by decide)).1

/-- C2: on the empty input `calc_sha_256` writes the 32 bytes
`e3b0c44298fc1c149afbf4c8996fb92427ae41e4649b934ca495991b7852b855`. -/
theorem calc_sha_256_empty (fuel : Nat) (s : stack) (hash mem : Buf) (input : Nat)
    (hw : s.w.length = 64) (hah : s.ah.length = 8) (hfuel : 3 ≤ fuel) :
    (calc_sha_256 fuel s hash mem input 0).map (fun b => bytes b 0 32) = some
      [0xe3, 0xb0, 0xc4, 0x42, 0x98, 0xfc, 0x1c, 0x14, 0x9a, 0xfb, 0xf4, 0xc8, 0x99, 0x6f,
       0xb9, 0x24, 0x27, 0xae, 0x41, 0xe4, 0x64, 0x9b, 0x93, 0x4c, 0xa4, 0x95, 0x99, 0x1b,
       0x78, 0x52, 0xb8, 0x55] := by
  rw [← sha256_spec_empty]
  exact calc_sha_256_eq_spec fuel s hash mem input [] hw hah rfl (by decide) hfuel

theorem calc_sha_256_empty_witness :
    (calc_sha_256 3 stack0 (fun _ => 0) (fun _ => 0) 0 0).map (fun b => bytes b 0 32) = some
      [0xe3, 0xb0, 0xc4, 0x42, 0x98, 0xfc, 0x1c, 0x14, 0x9a, 0xfb, 0xf4, 0xc8, 0x99, 0x6f,
       0xb9, 0x24, 0x27, 0xae, 0x41, 0xe4, 0x64, 0x9b, 0x93, 0x4c, 0xa4, 0x95, 0x99, 0x1b,
       0x78, 0x52, 0xb8, 0x55] :=
  calc_sha_256_empty 3 stack0 (fun _ => 0) (fun _ => 0) 0 rfl rfl (by decide)

/-- C3: on the 3-byte input `"abc"` `calc_sha_256` writes the 32 bytes
`ba7816bf8f01cfea414140de5dae2223b00361a396177a9cb410ff61f20015ad`. -/
theorem calc_sha_256_abc (fuel : Nat) (s : stack) (hash mem : Buf) (input : Nat)
    (hw : s.w.length = 64) (hah : s.ah.length = 8) (hfuel : 3 ≤ fuel)
    (hmem : bytes mem input 3 = [0x61, 0x62, 0x63]) :
    (calc_sha_256 fuel s hash mem input 3).map (fun b => bytes b 0 32) = some
      [0xba, 0x78, 0x16, 0xbf, 0x8f, 0x01, 0xcf, 0xea, 0x41, 0x41, 0x40, 0xde, 0x5d, 0xae,
       0x22, 0x23, 0xb0, 0x03, 0x61, 0xa3, 0x96, 0x17, 0x7a, 0x9c, 0xb4, 0x10, 0xff, 0x61,
       0xf2, 0x00, 0x15, 0xad] := by
  rw [← sha256_spec_abc]
  exact calc_sha_256_eq_spec fuel s hash mem input [0x61, 0x62, 0x63] hw hah hmem (by decide)
    hfuel

theorem calc_sha_256_abc_witness :
    (calc_sha_256 3 stack0 (fun _ => 0) (ofList [0x61, 0x62, 0x63]) 0 3).map
        (fun b => bytes b 0 32) = some
      [0xba, 0x78, 0x16, 0xbf, 0x8f, 0x01, 0xcf, 0xea, 0x41, 0x41, 0x40, 0xde, 0x5d, 0xae,
       0x22, 0x23, 0xb0, 0x03, 0x61, 0xa3, 0x96, 0x17, 0x7a, 0x9c, 0xb4, 0x10, 0xff, 0x61,
       0xf2, 0x00, 0x15, 0xad] :=
  calc_sha_256_abc 3 stack0 (fun _ => 0) (ofList [0x61, 0x62, 0x63]) 0 rfl rfl (by decide)
    (by decide)

/-! ## The cursor: invariants -/

theorem calc_chunk_ret (input chunk : Buf) (state : buffer_state) :
    (calc_chunk input chunk state).1 = if state.total_len_delivered then 0 else 1 := by
  unfold calc_chunk
  by_cases h1 : state.total_len_delivered = true
  · simp [h1]
  · by_cases h2 : state.len ≥ CHUNK_SIZE
    · simp [h1, h2]
    · simp only [h1, h2, if_false]
      by_cases h3 : (if state.single_one_delivered = true then CHUNK_SIZE - state.len
          else CHUNK_SIZE - state.len - 1) ≥ TOTAL_LEN_LEN
      · rw [if_pos h3]
        simp
      · rw [if_neg h3]
        simp

theorem calc_chunk_state (input chunk : Buf) (state : buffer_state) :
    (calc_chunk input chunk state).2.2 =
      if state.total_len_delivered then state
      else if 64 ≤ state.len then { state with p := state.p + 64, len := state.len - 64 }
      else { p := state.p + state.len, len := 0, total_len := state.total_len,
             single_one_delivered := true,
             total_len_delivered :=
               decide (8 ≤ if state.single_one_delivered then 64 - state.len
                           else 64 - state.len - 1) } := by
  unfold calc_chunk
  by_cases h1 : state.total_len_delivered = true
  · simp [h1]
  · by_cases h2 : 64 ≤ state.len
    · simp [h1, h2, CHUNK_SIZE]
    · have h4 : state.total_len_delivered = false := by simpa using h1
      simp only [h1, h2, if_false, CHUNK_SIZE, TOTAL_LEN_LEN, ge_iff_le]
      by_cases h3 : 8 ≤ (if state.single_one_delivered = true then 64 - state.len
          else 64 - state.len - 1)
      · rw [if_pos h3]
        simp [h3]
      · rw [if_neg h3]
        simp [h3, h4]

theorem calc_chunk_decreases (input chunk : Buf) (state : buffer_state)
    (h : (calc_chunk input chunk state).1 = 1) :
    measure_lt (cursor_measure (calc_chunk input chunk state).2.2) (cursor_measure state) := by
  rw [calc_chunk_ret] at h
  have h1 : state.total_len_delivered = false := by
    cases ht : state.total_len_delivered
    · rfl
    · rw [ht] at h
      simp at h
  rw [calc_chunk_state]
  simp only [h1, Bool.false_eq_true, if_false]
  by_cases h2 : 64 ≤ state.len
  · rw [if_pos h2]
    left
    simp only [cursor_measure]
    omega
  · rw [if_neg h2]
    by_cases h3 : state.len = 0
    · right
      cases hs : state.single_one_delivered
      · simp [cursor_measure, h3, hs]
      · simp [cursor_measure, h3, hs, h1]
    · left
      simp only [cursor_measure]
      omega

theorem reachable_inv (mem : Buf) (input L : Nat) (state : buffer_state)
    (h : reachable mem input L state) :
    state.total_len = L ∧ state.len ≤ L ∧ state.p = input + (L - state.len) ∧
    (state.single_one_delivered = true → state.len = 0) ∧
    (state.total_len_delivered = true → state.single_one_delivered = true) := by
  induction h with
  | init => exact ⟨rfl, Nat.le_refl _, by simp [init_buf_state], by simp [init_buf_state],
      by simp [init_buf_state]⟩
  | step chunk state _ ih =>
    obtain ⟨i1, i2, i3, i4, i5⟩ := ih
    rw [calc_chunk_state]
    by_cases h1 : state.total_len_delivered = true
    · rw [if_pos h1]
      exact ⟨i1, i2, i3, i4, i5⟩
    · rw [if_neg h1]
      by_cases h2 : 64 ≤ state.len
      · rw [if_pos h2]
        refine ⟨i1, ?_, ?_, ?_, ?_⟩
        · show state.len - 64 ≤ L
          omega
        · show state.p + 64 = input + (L - (state.len - 64))
          omega
        · intro hs
          have := i4 hs
          omega
        · exact i5
      · rw [if_neg h2]
        refine ⟨i1, Nat.zero_le _, ?_, fun _ => rfl, fun _ => rfl⟩
        show state.p + state.len = input + (L - 0)
        omega

/-- C20: every cursor state reachable from `init_buf_state (input, L)` has
`total_len = L`, `len ≤ L`, `p = input + (L - len)`, `len = 0` once the marker is
delivered, and the marker delivered once the trailer is; and each call that returns `1`
strictly decreases `(len, 1 - single_one_delivered, 1 - total_len_delivered)` in the
lexicographic order. -/
theorem cursor_invariant (mem : Buf) (input L : Nat) (state : buffer_state)
    (h : reachable mem input L state) :
    state.total_len = L ∧ state.len ≤ L ∧ state.p = input + (L - state.len) ∧
    state.p ≤ input + L ∧
    (state.single_one_delivered = true → state.len = 0) ∧
    (state.total_len_delivered = true → state.single_one_delivered = true) ∧
    ∀ chunk : Buf, (calc_chunk mem chunk state).1 = 1 →
      measure_lt (cursor_measure (calc_chunk mem chunk state).2.2) (cursor_measure state) := by
  obtain ⟨i1, i2, i3, i4, i5⟩ := reachable_inv mem input L state h
  exact ⟨i1, i2, i3, by omega, i4, i5, fun chunk hc => calc_chunk_decreases mem chunk state hc⟩

theorem cursor_invariant_witness :
    (calc_chunk (fun _ => 0) (fun _ => 0)
      (calc_chunk (fun _ => 0) (fun _ => 0) (init_buf_state 5 70)).2.2).2.2.total_len = 70 ∧
    (calc_chunk (fun _ => 0) (fun _ => 0)
      (calc_chunk (fun _ => 0) (fun _ => 0) (init_buf_state 5 70)).2.2).2.2.p ≤ 5 + 70 :=
  have h := cursor_invariant (fun _ => 0) 5 70 _
    (reachable.step (fun _ => 0) _ (reachable.step (fun _ => 0) _ reachable.init))
  ⟨h.1, h.2.2.2.1⟩

/-! ## The block buffer -/

theorem calc_chunk_last_nomark (input chunk : Buf) (p len total : Nat) (hlen : len ≤ 56) :
    calc_chunk input chunk
        { p := p, len := len, total_len := total,
          single_one_delivered := true, total_len_delivered := false } =
      (1, put_len (memset (memcpy chunk 0 input p len) len 0 (56 - len)) 56 total,
        { p := p + len, len := 0, total_len := total,
          single_one_delivered := true, total_len_delivered := true }) := by
  have h1 : ¬ 64 ≤ len := by omega
  have h2 : 8 ≤ 64 - len := by omega
  have c2 : 64 - len - 8 = 56 - len := by omega
  have c3 : len + (56 - len) = 56 := by omega
  simp only [calc_chunk, CHUNK_SIZE, TOTAL_LEN_LEN, ge_iff_le, h1, h2, if_false, if_true,
    Bool.false_eq_true, c2, c3, put_len]

theorem calc_chunk_last_nomark_bytes (input chunk : Buf) (p len total : Nat) (hlen : len ≤ 56) :
    bytes (put_len (memset (memcpy chunk 0 input p len) len 0 (56 - len)) 56 total) 0 64 =
      bytes input p len ++ List.replicate (56 - len) 0 ++ len_bytes total := by
  have e : bytes (put_len (memset (memcpy chunk 0 input p len) len 0 (56 - len)) 56 total) 0 64 =
      bytes (put_len (memset (memcpy chunk 0 input p len) len 0 (56 - len)) 56 total) 0
        (len + (56 - len) + 8) := congrArg _ (by omega)
  have e2 : 0 + (len + (56 - len)) = 56 := by omega
  rw [e, bytes_append, bytes_append, e2, put_len_bytes]
  congr 1
  congr 1
  · apply bytes_congr
    intro i hi
    simp (disch := omega) only [put_len_out, memset_out, memcpy_in]
    simp
  · apply bytes_eq_replicate
    intro i hi
    simp (disch := omega) only [put_len_out, memset_in]

theorem calc_chunk_split_nomark (input chunk : Buf) (p len total : Nat) (h57 : 57 ≤ len)
    (h64 : len < 64) :
    calc_chunk input chunk
        { p := p, len := len, total_len := total,
          single_one_delivered := true, total_len_delivered := false } =
      (1, memset (memcpy chunk 0 input p len) len 0 (64 - len),
        { p := p + len, len := 0, total_len := total,
          single_one_delivered := true, total_len_delivered := false }) := by
  have h1 : ¬ 64 ≤ len := by omega
  have h2 : ¬ 8 ≤ 64 - len := by omega
  simp only [calc_chunk, CHUNK_SIZE, TOTAL_LEN_LEN, ge_iff_le, h1, if_false, if_true,
    Bool.false_eq_true, h2]

theorem calc_chunk_split_nomark_bytes (input chunk : Buf) (p len : Nat) (h64 : len < 64) :
    bytes (memset (memcpy chunk 0 input p len) len 0 (64 - len)) 0 64 =
      bytes input p len ++ List.replicate (64 - len) 0 := by
  have e : bytes (memset (memcpy chunk 0 input p len) len 0 (64 - len)) 0 64 =
      bytes (memset (memcpy chunk 0 input p len) len 0 (64 - len)) 0 (len + (64 - len)) :=
    congrArg _ (by omega)
  rw [e, bytes_append]
  congr 1
  · apply bytes_congr
    intro i hi
    simp (disch := omega) only [memset_out, memcpy_in]
    simp
  · apply bytes_eq_replicate
    intro i hi
    simp (disch := omega) only [memset_in]

/-- What a block-returning `calc_chunk` call leaves in the buffer: 64 bytes that depend
on the cursor and the input only, and the old content beyond them. -/
theorem calc_chunk_block (input chunk : Buf) (state : buffer_state)
    (h : state.total_len_delivered = false) :
    bytes (calc_chunk input chunk state).2.1 0 64 =
      (if 64 ≤ state.len then bytes input state.p 64 else pad_block input state) ∧
    ∀ i, 64 ≤ i → (calc_chunk input chunk state).2.1 i = chunk i := by
  obtain ⟨p, len, total, single, tld⟩ := state
  simp only at h
  subst h
  by_cases h64 : 64 ≤ len
  · rw [calc_chunk_full input chunk _ rfl h64, if_pos h64]
    exact ⟨bytes_memcpy input chunk p 64, fun i hi => memcpy_out chunk 0 input p 64 i (by omega)⟩
  · rw [if_neg h64]
    cases single
    · by_cases h55 : len ≤ 55
      · rw [calc_chunk_last input chunk p len total h55, calc_chunk_last_bytes input chunk p len
          total h55]
        refine ⟨?_, fun i hi => ?_⟩
        · have e1 : 8 ≤ 64 - len - 1 := by omega
          have e2 : 64 - len - 1 - 8 = 55 - len := by omega
          simp [pad_block, e1, e2]
        · simp (disch := omega) only [put_len_out, memset_out, store_ne, memcpy_out]
      · rw [calc_chunk_split input chunk p len total (by omega) (by omega),
          calc_chunk_split_bytes input chunk p len (by omega) (by omega)]
        refine ⟨?_, fun i hi => ?_⟩
        · have e1 : ¬ 8 ≤ 63 - len := by omega
          have e2 : 64 - len - 1 = 63 - len := by omega
          simp [pad_block, e1, e2]
        · simp (disch := omega) only [memset_out, store_ne, memcpy_out]
    · by_cases h56 : len ≤ 56
      · rw [calc_chunk_last_nomark input chunk p len total h56,
          calc_chunk_last_nomark_bytes input chunk p len total h56]
        refine ⟨?_, fun i hi => ?_⟩
        · have e1 : 8 ≤ 64 - len := by omega
          have e2 : 64 - len - 8 = 56 - len := by omega
          simp [pad_block, e1, e2]
        · simp (disch := omega) only [put_len_out, memset_out, memcpy_out]
      · rw [calc_chunk_split_nomark input chunk p len total (by omega) (by omega),
          calc_chunk_split_nomark_bytes input chunk p len (by omega)]
        refine ⟨?_, fun i hi => ?_⟩
        · have e1 : ¬ 8 ≤ 64 - len := by omega
          simp [pad_block, e1]
        · simp (disch := omega) only [memset_out, memcpy_out]

/-- C18: a `calc_chunk` call that returns `1` leaves 64 bytes in the block that are the
same for every previous content of the buffer, and leaves the buffer beyond offset 63 as
it was; on the padding path the data, the marker, the zero fill and the trailer make
exactly 64 bytes, and the free space is at least 1 when the marker is written and at
least 8 when the trailer is. -/
theorem block_fully_overwritten (input chunk chunk1 : Buf) (state : buffer_state)
    (h : (calc_chunk input chunk state).1 = 1) :
    (calc_chunk input chunk1 state).1 = 1 ∧
    bytes (calc_chunk input chunk state).2.1 0 64 =
      bytes (calc_chunk input chunk1 state).2.1 0 64 ∧
    (∀ i, 64 ≤ i → (calc_chunk input chunk state).2.1 i = chunk i) ∧
    (state.len < 64 →
      bytes (calc_chunk input chunk state).2.1 0 64 = pad_block input state ∧
      (state.single_one_delivered = false → 1 ≤ 64 - state.len) ∧
      state.len + (if state.single_one_delivered then 0 else 1) +
        (if 8 ≤ 64 - state.len - (if state.single_one_delivered then 0 else 1)
         then 64 - state.len - (if state.single_one_delivered then 0 else 1) - 8 + 8
         else 64 - state.len - (if state.single_one_delivered then 0 else 1)) = 64) := by
  rw [calc_chunk_ret] at h
  have ht : state.total_len_delivered = false := by
    cases hs : state.total_len_delivered
    · rfl
    · rw [hs] at h
      simp at h
  obtain ⟨b1, o1⟩ := calc_chunk_block input chunk state ht
  obtain ⟨b2, -⟩ := calc_chunk_block input chunk1 state ht
  refine ⟨by rw [calc_chunk_ret, ht]; rfl, by rw [b1, b2], o1, fun hlen => ⟨?_, ?_, ?_⟩⟩
  · rw [b1, if_neg (by omega)]
  · intro _
    omega
  · cases state.single_one_delivered <;> simp <;> split <;> omega

theorem block_fully_overwritten_witness :
    bytes (calc_chunk (ofList [1, 2, 3]) (fun _ => 0) (init_buf_state 0 3)).2.1 0 64 =
      bytes (calc_chunk (ofList [1, 2, 3]) (fun _ => 0xFF) (init_buf_state 0 3)).2.1 0 64 ∧
    (calc_chunk (ofList [1, 2, 3]) (fun _ => 0) (init_buf_state 0 3)).2.1 64 = 0 :=
  have h := block_fully_overwritten (ofList [1, 2, 3]) (fun _ => 0) (fun _ => 0xFF)
    (init_buf_state 0 3) (by decide)
  ⟨h.2.1, h.2.2.1 64 (by decide)⟩

/-! ## Padding arithmetic, termination and determinism -/

theorem sum_length_eq_flatten (bl : List (List Nat)) :
    (bl.map List.length).sum = bl.flatten.length := by
  rw [List.length_flatten]

theorem non_trailer_bytes_eq (input : Buf) (p L : Nat) :
    non_trailer_bytes (full_run input L (L / 64) p L) = L + 1 + pad_zeros L := by
  have h := full_run_flatten input L p L
  have e : (full_run input L (L / 64) p L).map (fun x => x.1.length) =
      ((full_run input L (L / 64) p L).map Prod.fst).map List.length := by
    rw [List.map_map]
    rfl
  unfold non_trailer_bytes
  rw [e, sum_length_eq_flatten, h]
  simp only [List.length_append, bytes_length, List.length_replicate, List.length_singleton,
    len_bytes, List.length_cons, List.length_nil, TOTAL_LEN_LEN]
  omega

/-- C16, as the code has it: the input bytes, the marker and the zero padding of a run
number `L + 1 + (55 - L) mod 64`, which is 56 modulo 64; with the 8 trailer bytes the
count is a multiple of 64. -/
theorem non_trailer_bytes_mod (input chunk : Buf) (p L fuel : Nat) (hfuel : L / 64 + 3 ≤ fuel) :
    ∃ bs, run_chunks input fuel chunk (init_buf_state p L) = some bs ∧
      (bs.map Prod.fst).flatten =
        bytes input p L ++ [0x80] ++ List.replicate ((55 - (L : Int)) % 64).toNat 0 ++
          len_bytes L ∧
      non_trailer_bytes bs = L + 1 + ((55 - (L : Int)) % 64).toNat ∧
      non_trailer_bytes bs % 64 = 56 ∧
      (non_trailer_bytes bs + 8) % 64 = 0 := by
  have e : ((55 - (L : Int)) % 64).toNat = pad_zeros L := by
    unfold pad_zeros
    omega
  refine ⟨_, run_chunks_init input chunk p L fuel hfuel, ?_, ?_, ?_, ?_⟩
  · rw [e, full_run_flatten]
  · rw [e, non_trailer_bytes_eq]
  · rw [non_trailer_bytes_eq]
    unfold pad_zeros
    omega
  · rw [non_trailer_bytes_eq]
    unfold pad_zeros
    omega

theorem non_trailer_bytes_mod_witness :
    ∃ bs, run_chunks (fun _ => 0) 4 (fun _ => 0) (init_buf_state 0 100) = some bs ∧
      non_trailer_bytes bs % 64 = 56 ∧ (non_trailer_bytes bs + 8) % 64 = 0 := by
  obtain ⟨bs, h1, -, -, h4, h5⟩ :=
    non_trailer_bytes_mod (fun _ => 0) (fun _ => 0) 0 100 4 (by decide)
  exact ⟨bs, h1, h4, h5⟩

/-- C16, as stated, fails on the zero-length input: the run is one block, the marker and
55 zero bytes before the trailer, 56 bytes, not a multiple of 64. -/
theorem non_trailer_bytes_not_multiple :
    ∃ bs, run_chunks (fun _ => 0) 3 (fun _ => 0) (init_buf_state 0 0) = some bs ∧
      non_trailer_bytes bs = 56 ∧ ¬ non_trailer_bytes bs % 64 = 0 := by
  refine ⟨_, run_chunks_init (fun _ => 0) (fun _ => 0) 0 0 3 (by decide), ?_, ?_⟩
  · rw [non_trailer_bytes_eq]
    rfl
  · rw [non_trailer_bytes_eq]
    decide

theorem sha_loop_some (input : Buf) :
    ∀ (fuel : Nat) (l : locals) (bs : List (List Nat × buffer_state)),
      run_chunks input fuel l.chunk l.state = some bs →
      ∃ l1, sha_loop input fuel l = some l1 := by
  intro fuel
  induction fuel with
  | zero => intro l bs h; simp [run_chunks] at h
  | succ fuel ih =>
    intro l bs h
    simp only [run_chunks, sha_loop] at h ⊢
    by_cases h0 : (calc_chunk input l.chunk l.state).1 = 0
    · rw [if_pos h0]
      exact ⟨_, rfl⟩
    · rw [if_neg h0] at h ⊢
      obtain ⟨bs1, hbs1, -⟩ := Option.map_eq_some'.mp h
      exact ih (process_chunk
        { l with chunk := (calc_chunk input l.chunk l.state).2.1,
                 state := (calc_chunk input l.chunk l.state).2.2 }) bs1 hbs1

theorem write_hash_out (h : List Nat) (hash : Buf) (i : Nat) (hi : 32 ≤ i) :
    write_hash h hash i = hash i := by
  simp only [write_hash, List.range, List.range.loop, List.foldl_cons, List.foldl_nil]
  simp (disch := omega) only [store_ne]

theorem write_hash_lt (h : List Nat) (hash : Buf) :
    ∀ b ∈ bytes (write_hash h hash) 0 32, b < 256 := by
  have e : bytes (write_hash h hash) 0 32 =
      (List.range 8).flatMap (fun i =>
        [(h.getD i 0 >>> 24) % 256, (h.getD i 0 >>> 16) % 256, (h.getD i 0 >>> 8) % 256,
          h.getD i 0 % 256]) := rfl
  rw [e]
  intro b hb
  simp only [List.mem_flatMap, List.mem_range, List.mem_cons, List.mem_singleton,
    List.not_mem_nil, or_false] at hb
  obtain ⟨i, -, hb⟩ := hb
  rcases hb with rfl | rfl | rfl | rfl <;> exact Nat.mod_lt _ (by decide)

/-- The digest `calc_sha_256` writes, for an input of any length. -/
theorem calc_sha_256_digest (fuel : Nat) (s : stack) (hash mem : Buf) (input L : Nat)
    (hw : s.w.length = 64) (hah : s.ah.length = 8) (hfuel : L / 64 + 3 ≤ fuel) :
    (calc_sha_256 fuel s hash mem input L).map (fun b => bytes b 0 32) =
      some (serialise ((blocks (bytes mem input L ++ [0x80] ++
        List.replicate (pad_zeros L) 0 ++ len_bytes L)).foldl compress h_init)) := by
  obtain ⟨l1, hl1, hh⟩ := sha_loop_eq mem fuel
    { h := h_init, chunk := s.chunk, state := init_buf_state input L, w := s.w,
      ah := s.ah } _ hw hah (run_chunks_init mem s.chunk input L fuel hfuel)
  have hblocks : blocks (bytes mem input L ++ [0x80] ++ List.replicate (pad_zeros L) 0 ++
      len_bytes L) = (full_run mem L (L / 64) input L).map Prod.fst := by
    rw [← full_run_flatten]
    apply blocks_flatten
    intro b hb
    obtain ⟨x, hx, rfl⟩ := List.mem_map.mp hb
    exact full_run_block_length mem L input L x hx
  have hlen : l1.h.length = 8 := by
    rw [hh, foldl_length_inv _ compress_length]
    rfl
  simp only [calc_sha_256, hl1, Option.map_some', write_hash_bytes l1.h hash hlen]
  rw [hh, hblocks]

/-- C13: for an input of any length `L` the loop `while (calc_chunk (chunk, &state))`
ends after at most `L / 64 + 2` calls that return `1`, so `L / 64 + 3` calls are fuel
enough, and `calc_sha_256` then has a result: 32 bytes, each below 256, written at
offsets 0 to 31 of `hash` and nowhere else. -/
theorem calc_sha_256_terminates (fuel : Nat) (s : stack) (hash mem : Buf) (input L : Nat)
    (hfuel : L / 64 + 3 ≤ fuel) :
    (∃ bs, run_chunks mem fuel s.chunk (init_buf_state input L) = some bs ∧
      bs.length ≤ L / 64 + 2) ∧
    ∃ out, calc_sha_256 fuel s hash mem input L = some out ∧
      (bytes out 0 32).length = 32 ∧
      (∀ b ∈ bytes out 0 32, b < 256) ∧
      ∀ i, 32 ≤ i → out i = hash i := by
  have hrun := run_chunks_init mem s.chunk input L fuel hfuel
  refine ⟨⟨_, hrun, ?_⟩, ?_⟩
  · rw [full_run_length]
    split <;> omega
  · obtain ⟨l1, hl1⟩ := sha_loop_some mem fuel
      { h := h_init, chunk := s.chunk, state := init_buf_state input L, w := s.w,
        ah := s.ah } _ hrun
    refine ⟨write_hash l1.h hash, ?_, bytes_length _ _ _, write_hash_lt l1.h hash,
      fun i hi => write_hash_out l1.h hash i hi⟩
    simp only [calc_sha_256, hl1, Option.map_some']

theorem calc_sha_256_terminates_witness :
    ∃ out, calc_sha_256 5 stack0 (fun _ => 7) (fun _ => 1) 0 130 = some out ∧
      (bytes out 0 32).length = 32 ∧ out 32 = 7 := by
  obtain ⟨-, out, h1, h2, -, h4⟩ :=
    calc_sha_256_terminates 5 stack0 (fun _ => 7) (fun _ => 1) 0 130 (by decide)
  exact ⟨out, h1, h2, h4 32 (by decide)⟩

theorem serialise_length (h : List Nat) (hl : h.length = 8) : (serialise h).length = 32 := by
  match h, hl with
  | [a, b, c, d, e, f, g, i], _ => rfl

/-- C14: two runs of `calc_sha_256` on the same input bytes write the same 32-byte
digest, whatever the output buffer `hash`, the block buffer `chunk`, the schedule array
`w` and the registers `ah` hold on entry, and whatever fuel above the bound each has. -/
theorem digest_deterministic (fuel fuel1 : Nat) (s s1 : stack) (hash hash1 mem mem1 : Buf)
    (input input1 L : Nat) (hw : s.w.length = 64) (hah : s.ah.length = 8)
    (hw1 : s1.w.length = 64) (hah1 : s1.ah.length = 8)
    (hsame : bytes mem input L = bytes mem1 input1 L)
    (hfuel : L / 64 + 3 ≤ fuel) (hfuel1 : L / 64 + 3 ≤ fuel1) :
    (calc_sha_256 fuel s hash mem input L).map (fun b => bytes b 0 32) =
      (calc_sha_256 fuel1 s1 hash1 mem1 input1 L).map (fun b => bytes b 0 32) ∧
    ∃ d, (calc_sha_256 fuel s hash mem input L).map (fun b => bytes b 0 32) = some d ∧
      d.length = 32 := by
  rw [calc_sha_256_digest fuel s hash mem input L hw hah hfuel,
    calc_sha_256_digest fuel1 s1 hash1 mem1 input1 L hw1 hah1 hfuel1, hsame]
  refine ⟨rfl, _, rfl, ?_⟩
  apply serialise_length
  rw [foldl_length_inv _ compress_length]
  rfl

theorem digest_deterministic_witness :
    (calc_sha_256 3 stack0 (fun _ => 0) (ofList [0x61, 0x62, 0x63]) 0 3).map
        (fun b => bytes b 0 32) =
      (calc_sha_256 9 { chunk := fun _ => 0xFF, w := List.replicate 64 0xFFFFFFFF,
                        ah := List.replicate 8 0xFFFFFFFF } (fun _ => 0xAA)
        (ofList [0, 0, 0x61, 0x62, 0x63]) 2 3).map (fun b => bytes b 0 32) :=
  (digest_deterministic 3 9 stack0
    { chunk := fun _ => 0xFF, w := List.replicate 64 0xFFFFFFFF,
      ah := List.replicate 8 0xFFFFFFFF } (fun _ => 0) (fun _ => 0xAA)
    (ofList [0x61, 0x62, 0x63]) (ofList [0, 0, 0x61, 0x62, 0x63]) 0 2 3 rfl rfl (by decide)
    (by decide) (by decide) (by decide) (by decide)).1

/-! ## Serialisation of the digest -/

theorem write_hash_apply (h : List Nat) (hash : Buf) (i j : Nat) (hi : i < 8) (hj : j < 4) :
    write_hash h hash (4 * i + j) = (h.getD i 0 >>> (24 - 8 * j)) % 256 := by
  interval_cases i <;> interval_cases j <;> rfl

theorem be32_bytes (x : Nat) (hx : x < 2 ^ 32) :
    (((x >>> 24) % 256) <<< 24) % 2 ^ 32 ||| (((x >>> 16) % 256) <<< 16) % 2 ^ 32 |||
      (((x >>> 8) % 256) <<< 8) % 2 ^ 32 ||| x % 256 = x := by
  rw [be32_eq _ _ _ _ (Nat.mod_lt _ (by decide)) (Nat.mod_lt _ (by decide))
    (Nat.mod_lt _ (by decide)) (Nat.mod_lt _ (by decide))]
  simp only [Nat.shiftRight_eq_div_pow]
  omega

theorem getD_lt_of_forall (h : List Nat) (hb : ∀ x ∈ h, x < 2 ^ 32) (i : Nat) :
    h.getD i 0 < 2 ^ 32 := by
  rw [List.getD_eq_getElem?_getD]
  by_cases hi : i < h.length
  · rw [List.getElem?_eq_getElem hi]
    exact hb _ (List.getElem_mem hi)
  · rw [List.getElem?_eq_none (by omega)]
    decide

theorem load_words_write_hash (h : List Nat) (hash : Buf) (w : List Nat) (hw : w.length = 64)
    (hb : ∀ x ∈ h, x < 2 ^ 32) (i : Nat) (hi : i < 8) :
    (load_words (write_hash h hash) w).getD i 0 = h.getD i 0 := by
  rw [(load_words_spec _ w).2 i, if_pos ⟨by omega, by omega⟩]
  have e0 := write_hash_apply h hash i 0 hi (by decide)
  have e1 := write_hash_apply h hash i 1 hi (by decide)
  have e2 := write_hash_apply h hash i 2 hi (by decide)
  have e3 := write_hash_apply h hash i 3 hi (by decide)
  simp only [Nat.add_zero, Nat.mul_zero, Nat.mul_one, Nat.sub_zero, Nat.reduceMul,
    Nat.reduceSub, Nat.shiftRight_zero] at e0 e1 e2 e3
  rw [e0, e1, e2, e3]
  exact be32_bytes _ (getD_lt_of_forall h hb i)

/-- C12: the digest bytes are `hash[4 i + j] = (h[i] >> (24 - 8 j)) mod 256`, the 8 state
words in order, each big-endian; assembling each 4-byte group as the scheduler assembles
block words gives back `h[0..7]`, so two states with the same digest bytes are equal. -/
theorem digest_is_big_endian_state (h : List Nat) (hash : Buf) (hl : h.length = 8)
    (hb : ∀ x ∈ h, x < 2 ^ 32) :
    (∀ i j, i < 8 → j < 4 →
      write_hash h hash (4 * i + j) = (h.getD i 0 >>> (24 - 8 * j)) % 256) ∧
    (∀ (w : List Nat) (i : Nat), w.length = 64 → i < 8 →
      (load_words (write_hash h hash) w).getD i 0 = h.getD i 0) ∧
    (∀ (h1 : List Nat) (hash1 : Buf), h1.length = 8 → (∀ x ∈ h1, x < 2 ^ 32) →
      bytes (write_hash h1 hash1) 0 32 = bytes (write_hash h hash) 0 32 → h1 = h) := by
  refine ⟨fun i j hi hj => write_hash_apply h hash i j hi hj,
    fun w i hw hi => load_words_write_hash h hash w hw hb i hi, ?_⟩
  intro h1 hash1 hl1 hb1 heq
  have hpt : ∀ n, n < 32 → write_hash h1 hash1 n = write_hash h hash n := by
    intro n hn
    have := congrArg (fun l => l.getD n 0) heq
    simpa [bytes, List.getD_eq_getElem?_getD, hn] using this
  apply list_ext_getD _ _ (by rw [hl, hl1])
  intro i
  by_cases hi : i < 8
  · rw [← load_words_write_hash h1 hash1 (List.replicate 64 0) (by simp) hb1 i hi,
      ← load_words_write_hash h hash (List.replicate 64 0) (by simp) hb i hi,
      (load_words_spec _ _).2 i, (load_words_spec _ _).2 i,
      hpt (4 * i) (by omega), hpt (4 * i + 1) (by omega), hpt (4 * i + 2) (by omega),
      hpt (4 * i + 3) (by omega)]
  · simp only [List.getD_eq_getElem?_getD]
    rw [List.getElem?_eq_none (by omega), List.getElem?_eq_none (by omega)]

theorem digest_is_big_endian_state_witness :
    write_hash h_init (fun _ => 0) 5 = 0x67 ∧
    (load_words (write_hash h_init (fun _ => 0)) (List.replicate 64 0)).getD 1 0 = 0xbb67ae85 := by
  obtain ⟨h1, h2, -⟩ := digest_is_big_endian_state h_init (fun _ => 0) rfl (by decide)
  exact ⟨(h1 1 1 (by decide) (by decide)).trans (by decide),
    (h2 (List.replicate 64 0) 1 rfl (by decide)).trans (by decide)⟩

/-! ## The compression -/

theorem round_toList (w : List Nat) (r : registers) (i : Nat) :
    round w r.toList i = (ref_round r (k.getD i 0) (w.getD i 0)).toList := by
  cases r
  rfl

theorem rounds_toList (w : List Nat) (l : List Nat) (r : registers) :
    l.foldl (round w) r.toList =
      (l.foldl (fun r i => ref_round r (k.getD i 0) (w.getD i 0)) r).toList := by
  induction l generalizing r with
  | nil => rfl
  | cons i l ih => rw [List.foldl_cons, List.foldl_cons, round_toList, ih]

theorem init_ah_toList (H ah : List Nat) (hH : H.length = 8) (hah : ah.length = 8) :
    (List.range 8).foldl (fun ah i => ah.set i (H.getD i 0)) ah =
      registers.toList { a := H.getD 0 0, b := H.getD 1 0, c := H.getD 2 0, d := H.getD 3 0,
                         e := H.getD 4 0, f := H.getD 5 0, g := H.getD 6 0, h := H.getD 7 0 } := by
  match H, hH, ah, hah with
  | [_, _, _, _, _, _, _, _], _, [_, _, _, _, _, _, _, _], _ => rfl

theorem add_back_toList (H : List Nat) (hH : H.length = 8) (r : registers) :
    (List.range 8).foldl (fun h i => h.set i ((h.getD i 0 + r.toList.getD i 0) % 2 ^ 32)) H =
      [(H.getD 0 0 + r.a) % 2 ^ 32, (H.getD 1 0 + r.b) % 2 ^ 32, (H.getD 2 0 + r.c) % 2 ^ 32,
       (H.getD 3 0 + r.d) % 2 ^ 32, (H.getD 4 0 + r.e) % 2 ^ 32, (H.getD 5 0 + r.f) % 2 ^ 32,
       (H.getD 6 0 + r.g) % 2 ^ 32, (H.getD 7 0 + r.h) % 2 ^ 32] := by
  match H, hH with
  | [_, _, _, _, _, _, _, _], _ => rfl

theorem compression_eq_ref (H w ah : List Nat) (hH : H.length = 8) (hah : ah.length = 8) :
    compression H w ah = ref_compress H w := by
  simp only [compression, ref_compress]
  rw [init_ah_toList H ah hH hah, rounds_toList, add_back_toList H hH]

theorem not32_testBit (e j : Nat) (he : e < 2 ^ 32) (hj : j < 32) :
    (2 ^ 32 - 1 - e).testBit j = !e.testBit j := by
  have h := @Nat.testBit_two_pow_sub_succ e 32 he j
  rw [Nat.sub_sub, Nat.add_comm 1 e, h]
  simp [hj]

/-- C11: the per-block update of `calc_sha_256` is the reference compression: from
`(a, ..., h) = H`, 64 rounds of `S1`, `ch`, `temp1`, `S0`, `maj`, `temp2` and the register
shift, all modulo `2 ^ 32`, then `H[j] + register[j]` modulo `2 ^ 32`; one pass of the
code's round on `ah` is one reference round on `a, ..., h` in that order; the complement
`2 ^ 32 - 1 - e` used for `~e` flips each of the 32 bits of `e`. -/
theorem per_block_update_is_reference (l : locals) (w : List Nat) (r : registers) (i : Nat)
    (hh : l.h.length = 8) (hah : l.ah.length = 8) :
    (process_chunk l).h = ref_compress l.h (schedule l.chunk l.w) ∧
    compression l.h w l.ah = ref_compress l.h w ∧
    round w r.toList i = (ref_round r (k.getD i 0) (w.getD i 0)).toList ∧
    (∀ e j, e < 2 ^ 32 → j < 32 → (2 ^ 32 - 1 - e).testBit j = !e.testBit j) :=
  ⟨compression_eq_ref l.h (schedule l.chunk l.w) l.ah hh hah,
    compression_eq_ref l.h w l.ah hh hah, round_toList w r i, not32_testBit⟩

theorem per_block_update_is_reference_witness :
    (process_chunk { h := h_init, chunk := fun _ => 0, state := init_buf_state 0 0,
                     w := List.replicate 64 0, ah := List.replicate 8 0 }).h =
      ref_compress h_init (schedule (fun _ => 0) (List.replicate 64 0)) :=
  (per_block_update_is_reference
    { h := h_init, chunk := fun _ => 0, state := init_buf_state 0 0,
      w := List.replicate 64 0, ah := List.replicate 8 0 } [] ⟨0, 0, 0, 0, 0, 0, 0, 0⟩ 0
    rfl rfl).1

/-! ## `right_rot` -/

theorem right_rot_lt (value count : Nat) (hv : value < 2 ^ 32) : right_rot value count < 2 ^ 32 := by
  unfold right_rot
  apply Nat.or_lt_two_pow
  · rw [Nat.shiftRight_eq_div_pow]
    exact Nat.lt_of_le_of_lt (Nat.div_le_self _ _) hv
  · exact Nat.mod_lt _ (by decide)

theorem right_rot_testBit (value count i : Nat) (hv : value < 2 ^ 32) (h0 : 0 < count)
    (h32 : count < 32) (hi : i < 32) :
    (right_rot value count).testBit i = value.testBit ((i + count) % 32) := by
  unfold right_rot
  rw [Nat.testBit_or, Nat.testBit_shiftRight, Nat.testBit_mod_two_pow, Nat.testBit_shiftLeft]
  by_cases h : i + count < 32
  · rw [Nat.mod_eq_of_lt h, Nat.add_comm count i]
    have h1 : ¬ i ≥ 32 - count := by omega
    simp [h1]
  · have h1 : i ≥ 32 - count := by omega
    have h2 : (i + count) % 32 = i - (32 - count) := by omega
    have h3 : value.testBit (count + i) = false := by
      apply Nat.testBit_lt_two_pow
      exact Nat.lt_of_lt_of_le hv (Nat.pow_le_pow_right (by decide) (by omega))
    rw [h2, h3]
    simp [h1, hi]

theorem rot_on_counts_mem (other : Nat → Nat → Nat) (value count : Nat)
    (h : count ∈ rot_counts) : rot_on_counts other value count = right_rot value count := by
  unfold rot_on_counts
  rw [if_pos h]

/-- C19: the calls of `right_rot` in `calc_sha_256` (schedule and round) have their counts
in `{2, 6, 7, 11, 13, 17, 18, 19, 22, 25}`, since a rotation that agrees with `right_rot`
on those counts only gives the same schedule step and the same round; those counts are
strictly between 0 and 32, so both shift amounts are; and for a 32-bit value and such a
count `right_rot` is the circular right rotation, bit `i` of the result being bit
`(i + count) mod 32` of the value. -/
theorem right_rot_counts_and_rotation (other : Nat → Nat → Nat) (w ah : List Nat)
    (value count i j : Nat) (hv : value < 2 ^ 32) (h0 : 0 < count) (h32 : count < 32)
    (hj : j < 32) :
    extend_step_with right_rot w i = extend_step w i ∧
    round_with right_rot w ah i = round w ah i ∧
    extend_step_with (rot_on_counts other) w i = extend_step w i ∧
    round_with (rot_on_counts other) w ah i = round w ah i ∧
    (∀ c ∈ rot_counts, 0 < c ∧ c < 32 ∧ 0 < 32 - c ∧ 32 - c < 32) ∧
    right_rot value count < 2 ^ 32 ∧
    (right_rot value count).testBit j = value.testBit ((j + count) % 32) := by
  refine ⟨rfl, rfl, ?_, ?_, by decide, right_rot_lt value count hv,
    right_rot_testBit value count j hv h0 h32 hj⟩
  · simp only [extend_step_with, extend_step]
    rw [rot_on_counts_mem other _ 7 (by decide), rot_on_counts_mem other _ 18 (by decide),
      rot_on_counts_mem other _ 17 (by decide), rot_on_counts_mem other _ 19 (by decide)]
  · simp only [round_with, round]
    rw [rot_on_counts_mem other _ 6 (by decide), rot_on_counts_mem other _ 11 (by decide),
      rot_on_counts_mem other _ 25 (by decide), rot_on_counts_mem other _ 2 (by decide),
      rot_on_counts_mem other _ 13 (by decide), rot_on_counts_mem other _ 22 (by decide)]

theorem right_rot_counts_and_rotation_witness :
    right_rot 0x80000001 7 = 0x03000000 ∧
    (right_rot 0x80000001 7).testBit 24 = (0x80000001 : Nat).testBit ((24 + 7) % 32) := by
  have h := right_rot_counts_and_rotation (fun _ _ => 0) [] [] 0x80000001 7 0 24 (by decide)
    (by decide) (by decide) (by decide)
  exact ⟨by decide, h.2.2.2.2.2.2⟩

/-! ## Length extension -/

theorem len_bytes_eq_BE64_all (L : Nat) : len_bytes L = BE64 (8 * L) := by
  simp only [len_bytes, BE64, List.range, List.range.loop, List.map_cons, List.map_nil,
    Nat.shiftRight_eq_div_pow, Nat.shiftLeft_eq]
  norm_num
  refine ⟨?_, ?_, ?_, ?_, ?_, ?_, ?_, ?_⟩ <;> omega

theorem blocks_aux_append (b : Nat) (B : List Nat) :
    ∀ (a : Nat) (A : List Nat), A.length = 64 * a →
      blocks_aux (a + b) (A ++ B) = blocks_aux a A ++ blocks_aux b B := by
  intro a
  induction a with
  | zero =>
    intro A hA
    have : A = [] := List.length_eq_zero.mp (by omega)
    subst this
    simp [blocks_aux]
  | succ a ih =>
    intro A hA
    have e : a + 1 + b = (a + b) + 1 := by omega
    rw [e]
    simp only [blocks_aux]
    have h1 : (A ++ B).take 64 = A.take 64 := List.take_append_of_le_length (by omega)
    have h2 : (A ++ B).drop 64 = A.drop 64 ++ B := List.drop_append_of_le_length (by omega)
    rw [h1, h2, ih (A.drop 64) (by rw [List.length_drop]; omega)]
    rfl

theorem blocks_append (A B : List Nat) (hA : A.length % 64 = 0) (hB : B.length % 64 = 0) :
    blocks (A ++ B) = blocks A ++ blocks B := by
  unfold blocks
  have e : (A ++ B).length / 64 = A.length / 64 + B.length / 64 := by
    rw [List.length_append]
    omega
  rw [e, blocks_aux_append _ _ _ A (by omega)]

theorem process_chunk_ref (l : locals) (hh : l.h.length = 8) (hah : l.ah.length = 8) :
    (process_chunk l).h = ref_compress l.h (schedule l.chunk l.w) :=
  compression_eq_ref l.h (schedule l.chunk l.w) l.ah hh hah

theorem compress_lt (h block : List Nat) (hl : h.length = 8) :
    ∀ x ∈ compress h block, x < 2 ^ 32 := by
  unfold compress
  rw [process_chunk_ref _ hl (List.length_replicate 8 0)]
  intro x hx
  have h232 : 0 < 2 ^ 32 := by decide
  unfold ref_compress at hx
  simp only at hx
  generalize List.foldl (fun r i => ref_round r (k.getD i 0) (List.getD _ i 0)) _
    (List.range 64) = r at hx
  simp only [List.mem_cons, List.mem_singleton, List.not_mem_nil, or_false] at hx
  rcases hx with rfl | rfl | rfl | rfl | rfl | rfl | rfl | rfl <;>
    exact Nat.mod_lt _ h232

theorem fold_compress_inv (bl : List (List Nat)) :
    ∀ h : List Nat, h.length = 8 → (∀ x ∈ h, x < 2 ^ 32) →
      (bl.foldl compress h).length = 8 ∧ ∀ x ∈ bl.foldl compress h, x < 2 ^ 32 := by
  induction bl with
  | nil => exact fun h hl hb => ⟨hl, hb⟩
  | cons b bl ih =>
    intro h hl hb
    exact ih (compress h b) (by rw [compress_length, hl]) (compress_lt h b hl)

theorem decode_serialise (h : List Nat) (hl : h.length = 8) (hb : ∀ x ∈ h, x < 2 ^ 32) :
    decode_state (serialise h) = h := by
  match h, hl, hb with
  | [a, b, c, d, e, f, g, i], _, hb =>
    have ha := hb a (by simp)
    have hb1 := hb b (by simp)
    have hc := hb c (by simp)
    have hd := hb d (by simp)
    have he := hb e (by simp)
    have hf := hb f (by simp)
    have hg := hb g (by simp)
    have hi := hb i (by simp)
    simp only [decode_state, serialise, List.range, List.range.loop, List.map_cons,
      List.map_nil, List.flatMap_cons, List.flatMap_nil, List.cons_append, List.nil_append,
      List.append_nil, Nat.shiftRight_eq_div_pow]
    simp only [List.getD_eq_getElem?_getD]
    norm_num
    refine ⟨?_, ?_, ?_, ?_, ?_, ?_, ?_, ?_⟩ <;> omega

theorem padded_length_mod (L : Nat) : (L + (pad L).length) % 64 = 0 := by
  simp only [pad, List.length_append, List.length_singleton, List.length_replicate, BE64,
    List.length_map, List.length_range, pad_zeros]
  omega

theorem pad_zeros_extend (Lx Ly : Nat) :
    pad_zeros (Lx + (pad Lx).length + Ly) = pad_zeros Ly := by
  have h := padded_length_mod Lx
  unfold pad_zeros
  omega

theorem resume_digest (fuel : Nat) (s : stack) (hash mem : Buf) (h0 : List Nat)
    (input len total : Nat) (hw : s.w.length = 64) (hah : s.ah.length = 8)
    (hl : h0.length = 8) (hb : ∀ x ∈ h0, x < 2 ^ 32) (hfuel : len / 64 + 3 ≤ fuel) :
    (resume_sha_256 fuel s hash mem (serialise h0) input len total).map (fun b => bytes b 0 32) =
      some (serialise ((blocks (bytes mem input len ++ [0x80] ++
        List.replicate (pad_zeros len) 0 ++ len_bytes total)).foldl compress h0)) := by
  obtain ⟨l1, hl1, hh⟩ := sha_loop_eq mem fuel
    { h := decode_state (serialise h0), chunk := s.chunk,
      state := { p := input, len := len, total_len := total,
                 single_one_delivered := false, total_len_delivered := false },
      w := s.w, ah := s.ah } _ hw hah
    (run_chunks_full mem total (len / 64) fuel s.chunk input len rfl hfuel)
  have hblocks : blocks (bytes mem input len ++ [0x80] ++ List.replicate (pad_zeros len) 0 ++
      len_bytes total) = (full_run mem total (len / 64) input len).map Prod.fst := by
    rw [← full_run_flatten]
    apply blocks_flatten
    intro b hb
    obtain ⟨x, hx, rfl⟩ := List.mem_map.mp hb
    exact full_run_block_length mem total input len x hx
  simp only [decode_serialise h0 hl hb] at hh
  have hlen : l1.h.length = 8 := by
    rw [hh, foldl_length_inv _ compress_length, hl]
  simp only [resume_sha_256, hl1, Option.map_some', write_hash_bytes l1.h hash hlen]
  rw [hh, hblocks]

/-- The length-extension identity of the code, for any memory layout, fuel and prior
contents of the locals. -/
theorem length_extension_aux (X Y : List Nat) (fuel fuelX fuelY : Nat) (s sX sY : stack)
    (hash hashX hashY mem memX memY : Buf) (input inputX inputY : Nat)
    (hw : s.w.length = 64) (hah : s.ah.length = 8)
    (hwX : sX.w.length = 64) (hahX : sX.ah.length = 8)
    (hwY : sY.w.length = 64) (hahY : sY.ah.length = 8)
    (hmem : bytes mem input (X ++ pad X.length ++ Y).length = X ++ pad X.length ++ Y)
    (hmemX : bytes memX inputX X.length = X) (hmemY : bytes memY inputY Y.length = Y)
    (hfuel : (X ++ pad X.length ++ Y).length / 64 + 3 ≤ fuel)
    (hfuelX : X.length / 64 + 3 ≤ fuelX) (hfuelY : Y.length / 64 + 3 ≤ fuelY) :
    ∃ dX, (calc_sha_256 fuelX sX hashX memX inputX X.length).map (fun b => bytes b 0 32) =
        some dX ∧
      (calc_sha_256 fuel s hash mem input (X ++ pad X.length ++ Y).length).map
          (fun b => bytes b 0 32) =
        (resume_sha_256 fuelY sY hashY memY dX inputY Y.length
          (X ++ pad X.length ++ Y).length).map (fun b => bytes b 0 32) := by
  have hX := calc_sha_256_digest fuelX sX hashX memX inputX X.length hwX hahX hfuelX
  have hM := calc_sha_256_digest fuel s hash mem input (X ++ pad X.length ++ Y).length hw hah
    hfuel
  obtain ⟨hl, hb⟩ := fold_compress_inv (blocks (bytes memX inputX X.length ++ [0x80] ++
    List.replicate (pad_zeros X.length) 0 ++ len_bytes X.length)) h_init rfl (by decide)
  refine ⟨_, hX, ?_⟩
  rw [hM, resume_digest fuelY sY hashY memY _ inputY Y.length _ hwY hahY hl hb hfuelY, hmem,
    hmemX, hmemY]
  have hLm : (X ++ pad X.length ++ Y).length = X.length + (pad X.length).length + Y.length := by
    simp only [List.length_append]
  have hz : pad_zeros (X ++ pad X.length ++ Y).length = pad_zeros Y.length := by
    rw [hLm, pad_zeros_extend]
  have hA : X ++ [0x80] ++ List.replicate (pad_zeros X.length) 0 ++ len_bytes X.length =
      X ++ pad X.length := by
    rw [len_bytes_eq_BE64_all]
    simp [pad]
  have hsplit : X ++ pad X.length ++ Y ++ [0x80] ++
      List.replicate (pad_zeros (X ++ pad X.length ++ Y).length) 0 ++
      len_bytes (X ++ pad X.length ++ Y).length =
      (X ++ pad X.length) ++ (Y ++ [0x80] ++ List.replicate (pad_zeros Y.length) 0 ++
        len_bytes (X ++ pad X.length ++ Y).length) := by
    rw [hz]
    simp only [List.append_assoc]
  have hAl : (X ++ pad X.length).length % 64 = 0 := by
    rw [List.length_append]
    exact padded_length_mod X.length
  have hBl : (Y ++ [0x80] ++ List.replicate (pad_zeros Y.length) 0 ++
      len_bytes (X ++ pad X.length ++ Y).length).length % 64 = 0 := by
    simp only [List.length_append, List.length_singleton, List.length_replicate, len_bytes,
      List.length_cons, List.length_nil, pad_zeros]
    omega
  rw [hsplit, blocks_append _ _ hAl hBl, List.foldl_append, hA]

/-- C15, as the code has it: the length-extension identity holds for every `X` and `Y`;
the digest of `X ++ pad (X) ++ Y` is what the block loop gives when resumed from the 8
state words decoded from the digest of `X`, over `Y`, with `total_len` set to
`|X| + |pad (X)| + |Y|`, whatever the memory layout and the prior contents of the
locals. -/
theorem length_extension_holds (X Y : List Nat) (fuel fuelX fuelY : Nat) (s sX sY : stack)
    (hash hashX hashY mem memX memY : Buf) (input inputX inputY : Nat)
    (hw : s.w.length = 64) (hah : s.ah.length = 8)
    (hwX : sX.w.length = 64) (hahX : sX.ah.length = 8)
    (hwY : sY.w.length = 64) (hahY : sY.ah.length = 8)
    (hmem : bytes mem input (X ++ pad X.length ++ Y).length = X ++ pad X.length ++ Y)
    (hmemX : bytes memX inputX X.length = X) (hmemY : bytes memY inputY Y.length = Y)
    (hfuel : (X ++ pad X.length ++ Y).length / 64 + 3 ≤ fuel)
    (hfuelX : X.length / 64 + 3 ≤ fuelX) (hfuelY : Y.length / 64 + 3 ≤ fuelY) :
    ∃ dX, (calc_sha_256 fuelX sX hashX memX inputX X.length).map (fun b => bytes b 0 32) =
        some dX ∧
      (calc_sha_256 fuel s hash mem input (X ++ pad X.length ++ Y).length).map
          (fun b => bytes b 0 32) =
        (resume_sha_256 fuelY sY hashY memY dX inputY Y.length
          (X ++ pad X.length ++ Y).length).map (fun b => bytes b 0 32) :=
  length_extension_aux X Y fuel fuelX fuelY s sX sY hash hashX hashY mem memX memY input inputX
    inputY hw hah hwX hahX hwY hahY hmem hmemX hmemY hfuel hfuelX hfuelY

theorem length_extension_holds_witness :
    length_extension_identity [0x61, 0x62, 0x63] [0x64] :=
  length_extension_holds [0x61, 0x62, 0x63] [0x64] _ _ _ stack0 stack0 stack0 (fun _ => 0)
    (fun _ => 0) (fun _ => 0) _ _ _ 0 0 0 rfl rfl rfl rfl rfl rfl (bytes_ofList _)
    (bytes_ofList _) (bytes_ofList _) (Nat.le_refl _) (Nat.le_refl _) (Nat.le_refl _)

/-- C15, as stated, is false: it is not the case that the length-extension identity
fails for some `X` and `Y`; it holds for all of them. -/
theorem length_extension_not_absent : ¬ ¬ ∀ X Y : List Nat, length_extension_identity X Y :=
  fun h => h (fun X Y =>
    length_extension_aux X Y _ _ _ stack0 stack0 stack0 (fun _ => 0) (fun _ => 0)
      (fun _ => 0) _ _ _ 0 0 0 rfl rfl rfl rfl rfl rfl (bytes_ofList _) (bytes_ofList _)
      (bytes_ofList _) (Nat.le_refl _) (Nat.le_refl _) (Nat.le_refl _))

end Sha256

namespace LinkedListC

/-! ## The linked list -/

theorem chain_frame (heap : Heap) (b : Nat) (node : Node) :
    ∀ (nodes : List (Nat × Nat)) (p : Nat), b ∉ nodes.map Prod.fst →
      chain heap p nodes → chain (write heap b node) p nodes := by
  intro nodes
  induction nodes with
  | nil => exact fun p _ h => h
  | cons n rest ih =>
    obtain ⟨a, x⟩ := n
    intro p hb h
    obtain ⟨h1, h2, h3, h4⟩ := h
    simp only [List.map_cons, List.mem_cons, not_or] at hb
    refine ⟨h1, h2, ?_, ih _ hb.2 h4⟩
    simp only [write]
    rw [if_neg (fun e => hb.1 e.symm), h3]

theorem chain_head (heap : Heap) (p : Nat) (nodes : List (Nat × Nat))
    (h : chain heap p nodes) : p = head_addr nodes := by
  cases nodes with
  | nil => exact h
  | cons n rest => exact h.1

theorem last_addr_mem (n : Nat × Nat) (rest : List (Nat × Nat)) :
    last_addr (n :: rest) ∈ (n :: rest).map Prod.fst := by
  induction rest generalizing n with
  | nil =>
    obtain ⟨a, x⟩ := n
    simp [last_addr]
  | cons m rest ih =>
    have := ih m
    simp only [last_addr]
    exact List.mem_cons_of_mem _ this

theorem last_node_chain (heap : Heap) :
    ∀ (rest : List (Nat × Nat)) (n : Nat × Nat) (p fuel : Nat),
      chain heap p (n :: rest) → (n :: rest).length ≤ fuel →
      last_node heap fuel p = some (last_addr (n :: rest)) := by
  intro rest
  induction rest with
  | nil =>
    intro n p fuel h hf
    obtain ⟨a, x⟩ := n
    obtain ⟨h1, h2, h3, -⟩ := h
    obtain ⟨f, rfl⟩ : ∃ f, fuel = f + 1 := ⟨fuel - 1, by simp at hf; omega⟩
    subst h1
    simp [last_node, h3, head_addr, last_addr]
  | cons m rest ih =>
    intro n p fuel h hf
    obtain ⟨a, x⟩ := n
    obtain ⟨b, y⟩ := m
    obtain ⟨h1, h2, h3, h4⟩ := h
    obtain ⟨f, rfl⟩ : ∃ f, fuel = f + 1 := ⟨fuel - 1, by simp at hf; omega⟩
    subst h1
    have hb : b ≠ NULL := h4.2.1
    simp only [last_node, h3, head_addr, ne_eq, hb, not_false_eq_true, if_true, last_addr]
    exact ih (b, y) b f h4 (by simp at hf ⊢; omega)

theorem chain_snoc (heap : Heap) (b y : Nat) (hb0 : b ≠ NULL) :
    ∀ (rest : List (Nat × Nat)) (n : Nat × Nat) (p : Nat) (node : Node),
      chain heap p (n :: rest) → ((n :: rest).map Prod.fst).Nodup →
      b ∉ (n :: rest).map Prod.fst → heap b = some { data := y, next := NULL } →
      heap (last_addr (n :: rest)) = some node →
      chain (write heap (last_addr (n :: rest)) { node with next := b }) p
        (n :: rest ++ [(b, y)]) := by
  intro rest
  induction rest with
  | nil =>
    intro n p node h _ hb hhb hnode
    obtain ⟨a, x⟩ := n
    obtain ⟨h1, h2, h3, -⟩ := h
    simp only [List.map_cons, List.map_nil, List.mem_singleton] at hb
    simp only [last_addr] at hnode ⊢
    rw [h3] at hnode
    cases Option.some.inj hnode
    refine ⟨h1, h2, ?_, rfl, hb0, ?_, rfl⟩
    · simp [write, head_addr]
    · simp only [write, head_addr]
      rw [if_neg hb, hhb]
  | cons m rest ih =>
    intro n p node h hnd hb hhb hnode
    obtain ⟨a, x⟩ := n
    obtain ⟨h1, h2, h3, h4⟩ := h
    simp only [List.map_cons, List.nodup_cons] at hnd
    have hla : last_addr (m :: rest) ≠ a := by
      intro e
      have := last_addr_mem m rest
      rw [e] at this
      exact hnd.1 (by simpa using this)
    have hb' : b ∉ (m :: rest).map Prod.fst := by
      simp only [List.map_cons, List.mem_cons, not_or] at hb ⊢
      exact hb.2
    have e : last_addr ((a, x) :: m :: rest) = last_addr (m :: rest) := by
      obtain ⟨c, z⟩ := m
      rfl
    rw [e] at hnode ⊢
    have ih' := ih m (head_addr (m :: rest)) node h4 (by simpa using hnd.2) hb' hhb hnode
    refine ⟨h1, h2, ?_, ?_⟩
    · simp only [write]
      rw [if_neg (fun e => hla e.symm), h3]
      obtain ⟨c, z⟩ := m
      rfl
    · obtain ⟨c, z⟩ := m
      exact ih'

theorem walk_chain (heap : Heap) :
    ∀ (nodes : List (Nat × Nat)) (p fuel : Nat), chain heap p nodes → nodes.length ≤ fuel →
      walk heap fuel p = some (nodes.map Prod.snd) := by
  intro nodes
  induction nodes with
  | nil =>
    intro p fuel h _
    have : p = NULL := h
    subst this
    cases fuel <;> simp [walk]
  | cons n rest ih =>
    intro p fuel h hf
    obtain ⟨a, x⟩ := n
    obtain ⟨h1, h2, h3, h4⟩ := h
    obtain ⟨f, rfl⟩ : ∃ f, fuel = f + 1 := ⟨fuel - 1, by simp at hf; omega⟩
    subst h1
    simp only [walk, h2, if_false, h3]
    rw [ih _ f h4 (by simp at hf; omega)]
    rfl

theorem chain_alloc (heap : Heap) :
    ∀ (nodes : List (Nat × Nat)) (p a : Nat), chain heap p nodes → a ∈ nodes.map Prod.fst →
      ∃ node, heap a = some node := by
  intro nodes
  induction nodes with
  | nil => intro p a _ ha; simp at ha
  | cons n rest ih =>
    intro p a h ha
    obtain ⟨c, x⟩ := n
    obtain ⟨-, -, h3, h4⟩ := h
    simp only [List.map_cons, List.mem_cons] at ha
    rcases ha with rfl | ha
    · exact ⟨_, h3⟩
    · exact ih _ a h4 ha

theorem enqueue_step (fuel : Nat) (heap : Heap) (list : LinkedList) (nodes : List (Nat × Nat))
    (b y : Nat) (h : holds heap list nodes) (hb0 : b ≠ NULL) (hb : b ∉ nodes.map Prod.fst)
    (hfuel : nodes.length ≤ fuel) :
    ∃ heap1 list1, enqueue fuel heap list b y = some (1, heap1, list1) ∧
      holds heap1 list1 (nodes ++ [(b, y)]) := by
  obtain ⟨hc, hs, hn⟩ := h
  have hnd : ((nodes ++ [(b, y)]).map Prod.fst).Nodup := by
    rw [List.map_append, List.nodup_append]
    refine ⟨hn, by simp, ?_⟩
    intro a ha ha1
    simp only [List.map_cons, List.map_nil, List.mem_singleton] at ha1
    subst ha1
    exact hb ha
  have hw : write heap b { data := y, next := NULL } b = some { data := y, next := NULL } := by
    simp [write]
  unfold enqueue
  rw [if_neg hb0]
  cases nodes with
  | nil =>
    have he : isEmpty list = true := by simp [isEmpty, hs]
    simp only [he, if_true]
    refine ⟨_, _, rfl, ⟨rfl, hb0, hw, rfl⟩, by simp [hs], hnd⟩
  | cons n rest =>
    have he : isEmpty list = false := by simp [isEmpty, hs]
    have hc1 := chain_frame heap b { data := y, next := NULL } _ _ hb hc
    have hl := last_node_chain _ rest n list.first fuel hc1 hfuel
    obtain ⟨node, hnode⟩ := chain_alloc _ _ _ _ hc1 (last_addr_mem n rest)
    simp only [he, Bool.false_eq_true, if_false, hl, hnode]
    refine ⟨_, _, rfl, ?_, by simp [hs], hnd⟩
    exact chain_snoc _ b y hb0 rest n list.first node hc1 hn hb hw hnode

theorem enqueue_all_holds (fuel : Nat) :
    ∀ (allocs nodes : List (Nat × Nat)) (heap : Heap) (list : LinkedList),
      holds heap list nodes → (∀ a ∈ allocs.map Prod.fst, a ≠ NULL) →
      ((nodes ++ allocs).map Prod.fst).Nodup → nodes.length + allocs.length ≤ fuel →
      ∃ heap1 list1, enqueue_all fuel heap list allocs =
          some (List.replicate allocs.length 1, heap1, list1) ∧
        holds heap1 list1 (nodes ++ allocs) := by
  intro allocs
  induction allocs with
  | nil =>
    intro nodes heap list h _ _ _
    exact ⟨heap, list, rfl, by simpa using h⟩
  | cons n rest ih =>
    intro nodes heap list h h0 hnd hfuel
    obtain ⟨b, y⟩ := n
    have hb0 : b ≠ NULL := h0 b (by simp)
    have hb : b ∉ nodes.map Prod.fst := by
      rw [List.map_append, List.nodup_append] at hnd
      intro hm
      exact hnd.2.2 hm (by simp)
    obtain ⟨heap1, list1, e1, h1⟩ := enqueue_step fuel heap list nodes b y h hb0 hb
      (by simp at hfuel; omega)
    have e : nodes ++ (b, y) :: rest = (nodes ++ [(b, y)]) ++ rest := by simp
    obtain ⟨heap2, list2, e2, h2⟩ := ih (nodes ++ [(b, y)]) heap1 list1 h1
      (fun a ha => h0 a (by simp only [List.map_cons, List.mem_cons]; exact Or.inr ha))
      (by rw [← e]; exact hnd) (by simp at hfuel ⊢; omega)
    refine ⟨heap2, list2, ?_, by rw [e]; exact h2⟩
    simp only [enqueue_all, e1, e2, Option.map_some', List.length_cons, List.replicate_succ]

/-- C17: the list is a tail-insertion queue.  From `init`, `enqueue` calls with items
`x1, ..., xn` whose allocations succeed (`malloc` returns distinct non-null pointers) all
return `1` and leave `size = n`, `isEmpty` true exactly when `n = 0`, and the items
`x1, ..., xn` in this order along the `next` pointers from `first`, so each new item
comes last; an `enqueue` whose allocation fails returns `-1` and leaves the heap and the
list as they are. -/
theorem enqueue_is_tail_insertion (fuel fuel1 : Nat) (heap0 heap : Heap)
    (list0 list : LinkedList) (allocs : List (Nat × Nat)) (data : Nat)
    (hnull : ∀ a ∈ allocs.map Prod.fst, a ≠ NULL) (hfresh : (allocs.map Prod.fst).Nodup)
    (hfuel : allocs.length ≤ fuel) :
    (∃ heap1 list1, enqueue_all fuel heap0 (init list0) allocs =
        some (List.replicate allocs.length 1, heap1, list1) ∧
      list1.size = allocs.length ∧
      (isEmpty list1 = true ↔ allocs.length = 0) ∧
      walk heap1 allocs.length list1.first = some (allocs.map Prod.snd)) ∧
    enqueue fuel1 heap list NULL data = some (-1, heap, list) := by
  refine ⟨?_, by simp [enqueue]⟩
  obtain ⟨heap1, list1, e, hc, hs, -⟩ := enqueue_all_holds fuel allocs [] heap0 (init list0)
    ⟨rfl, rfl, List.nodup_nil⟩ hnull (by simpa using hfresh) (by simpa using hfuel)
  simp only [List.nil_append] at hc hs
  refine ⟨heap1, list1, e, hs, by simp [isEmpty, hs], walk_chain heap1 allocs list1.first _ hc
    (Nat.le_refl _)⟩

theorem enqueue_is_tail_insertion_witness :
    (∃ heap1 list1, enqueue_all 3 (fun _ => none) (init { first := 5, size := 9 })
        [(10, 100), (20, 200), (30, 300)] = some ([1, 1, 1], heap1, list1) ∧
      list1.size = 3 ∧
      walk heap1 3 list1.first = some [100, 200, 300]) ∧
    enqueue 0 (fun _ => none) { first := 5, size := 9 } NULL 7 =
      some (-1, fun _ => none, { first := 5, size := 9 }) := by
  obtain ⟨⟨heap1, list1, h1, h2, -, h4⟩, h5⟩ :=
    enqueue_is_tail_insertion 3 0 (fun _ => none) (fun _ => none) { first := 5, size := 9 }
      { first := 5, size := 9 } [(10, 100), (20, 200), (30, 300)] 7 (by decide) (by decide)
      (by decide)
  exact ⟨⟨heap1, list1, h1, h2, h4⟩, h5⟩

end LinkedListC
